import Mathlib

/-!
Shallow embedding of the docc-mcp documentation indexing and retrieval
subsystem (TypeScript sources: `docc-manager.ts`, `text-search.ts`, the
semantic search engine, `index-builder.ts`), together with theorems settling
the claims about chunking, extraction, ranking, persistence and symbol
resolution.

Modelling conventions:
* JS strings are Lean `String`s; `str.trim()`, `str.split(/\s+/)`,
  `Array.prototype.slice` (including negative indices) and `join(' ')` are
  implemented character-for-character below.
* JS numbers used as loop counters and sizes are `Int`; floating point
  arithmetic appears only in `cosineSimilarity`, embedded over `ℝ` with the
  0/0 = NaN outcome made explicit as `Option.none`.
* `for`-loops that can diverge are embedded with an explicit fuel parameter;
  a `none` result means the loop is still running when the fuel runs out.
  Divergence is expressed as `none` for every fuel value.
-/

/-- JS `String.prototype.trim()`: strip leading and trailing whitespace. -/
def jsTrim (s : String) : String :=
  String.mk (((s.toList.dropWhile Char.isWhitespace).reverse.dropWhile
    Char.isWhitespace).reverse)

/-- Maximal whitespace-free runs of a character list, accumulating the current
run in reverse (helper for `wordsOf`). -/
def wsTokensAux : List Char → List Char → List String
  | [], cur => if cur.isEmpty then [] else [String.mk cur.reverse]
  | c :: cs, cur =>
    if c.isWhitespace then
      if cur.isEmpty then wsTokensAux cs []
      else String.mk cur.reverse :: wsTokensAux cs []
    else wsTokensAux cs (c :: cur)

/-- JS `text.split(/\s+/)`: the maximal whitespace-free runs of `text`, with an
extra empty string at the front when `text` starts with whitespace and at the
back when it ends with whitespace; `""` splits to `[""]`. -/
def wordsOf (s : String) : List String :=
  match s.toList with
  | [] => [""]
  | c :: cs =>
    (if c.isWhitespace then [""] else []) ++ wsTokensAux (c :: cs) []
      ++ (if ((c :: cs).getLast (List.cons_ne_nil c cs)).isWhitespace
          then [""] else [])

/-- `Array.prototype.join(' ')` at the character level. -/
def joinSp : List (List Char) → List Char
  | [] => []
  | [w] => w
  | w :: ws => w ++ ' ' :: joinSp ws

/-- `Array.prototype.join(' ')` on strings. -/
def joinSpace (l : List String) : String :=
  String.mk (joinSp (l.map String.toList))

/-- The index clamping performed by `Array.prototype.slice`: a negative index
counts from the end of the array (bounded below by 0), a non-negative index is
capped at the length. -/
def jsSliceIdx (len : Nat) (x : Int) : Nat :=
  if x < 0 then ((len : Int) + x).toNat else min x.toNat len

/-- `Array.prototype.slice(s, e)`: the elements with indices in
`[clamp s, clamp e)`. -/
def jsSlice (l : List α) (s e : Int) : List α :=
  (l.take (jsSliceIdx l.length e)).drop (jsSliceIdx l.length s)

namespace TextSearch

/-- The `for (let i = 0; i < words.length; i += maxTokens - overlap)` loop of
`TextSearchEngine.chunkText`, with explicit fuel.  Each round slices a window
of `maxTokens` words starting at `i`, pushes it (unless it trims to the empty
string) and advances `i` by `maxTokens - overlap`; the source has no guard
against a non-positive step. -/
def chunkLoop (words : List String) (maxTokens overlap : Int) :
    Int → List String → Nat → Option (List String)
  | _, _, 0 => none
  | i, acc, n + 1 =>
    if i < (words.length : Int) then
      let chunk := joinSpace (jsSlice words i (i + maxTokens))
      chunkLoop words maxTokens overlap (i + (maxTokens - overlap))
        (if jsTrim chunk ≠ "" then acc ++ [chunk] else acc) n
    else some acc

/-- `TextSearchEngine.chunkText(text, maxTokens = 1000, overlap = 100)`:
split into words, return `[text]` whole when there are at most `maxTokens`
words, otherwise run the sliding-window loop. -/
def chunkText (text : String) (maxTokens overlap : Int) (fuel : Nat) :
    Option (List String) :=
  let words := wordsOf text
  if (words.length : Int) ≤ maxTokens then some [text]
  else chunkLoop words maxTokens overlap 0 [] fuel

end TextSearch

namespace Semantic

/-- `Math.floor(n * 0.75)` for an integral JS number `n` (0.75 is exact in
binary floating point, so the product is exact for the sizes in play). -/
def floor75 (n : Int) : Int := (3 * n).fdiv 4

/-- The window loop of `SemanticSearchEngine.chunkText`, with explicit fuel:
slice `wpc` words at `i`, push the trimmed window when non-empty, `break` when
the window reached the end of the word list (the source comment says this is
to avoid an infinite loop), otherwise advance `i` by `wpc - ow`. -/
def chunkLoop (words : List String) (wpc ow : Int) :
    Int → List String → Nat → Option (List String)
  | _, _, 0 => none
  | i, acc, n + 1 =>
    if i < (words.length : Int) then
      let chunk := joinSpace (jsSlice words i (i + wpc))
      let acc' := if 0 < (jsTrim chunk).length then acc ++ [jsTrim chunk] else acc
      if (words.length : Int) ≤ i + wpc then some acc'
      else chunkLoop words wpc ow (i + (wpc - ow)) acc' n
    else some acc

/-- `SemanticSearchEngine.chunkText(text, maxTokens = 500, overlap = 50)`:
word windows of `⌊maxTokens·0.75⌋` words stepped by
`⌊maxTokens·0.75⌋ - ⌊overlap·0.75⌋`, falling back to `[text]` when no window
survived trimming. -/
def chunkText (text : String) (maxTokens overlap : Int) (fuel : Nat) :
    Option (List String) :=
  let words := wordsOf text
  (chunkLoop words (floor75 maxTokens) (floor75 overlap) 0 [] fuel).map
    fun chunks => if 0 < chunks.length then chunks else [text]

end Semantic

example : wordsOf "a b c" = ["a", "b", "c"] := by decide
example : wordsOf " a  b " = ["", "a", "b", ""] := by decide
example : wordsOf "" = [""] := by decide
example : wordsOf " " = ["", ""] := by decide
example : TextSearch.chunkText "a b" 1000 100 5 = some ["a b"] := by decide
example : TextSearch.chunkText "a b c" 2 1 9 = some ["a b", "b c", "c"] := by decide
example : Semantic.chunkText "a b c" 4 0 9 = some ["a b c"] := by decide
example : Semantic.chunkText "a b c" 2 0 9 = some ["a", "b", "c"] := by decide

/-- When `overlap = maxTokens` the lexical window loop never advances: as long
as the current index is inside the word list it recurses at the same index, so
it exhausts any amount of fuel. -/
theorem TextSearch.chunkLoopText_gap_zero {words : List String} {mt : Int} {i : Int}
    (hi : i < (words.length : Int)) :
    ∀ (n : Nat) (acc : List String), TextSearch.chunkLoop words mt mt i acc n = none := by
  intro n
  induction n with
  | zero => intro acc; rfl
  | succ n ih =>
    intro acc
    simp only [TextSearch.chunkLoop, if_pos hi, sub_self, add_zero]
    exact ih _

/-- When `⌊overlap·0.75⌋ = ⌊maxTokens·0.75⌋` and the window at the current
index does not reach the end of the word list, the semantic window loop never
advances and its `break` never fires, so it exhausts any amount of fuel. -/
theorem Semantic.chunkLoopSem_gap_zero {words : List String} {wpc : Int} {i : Int}
    (hi : i < (words.length : Int)) (hbr : i + wpc < (words.length : Int)) :
    ∀ (n : Nat) (acc : List String), Semantic.chunkLoop words wpc wpc i acc n = none := by
  intro n
  induction n with
  | zero => intro acc; rfl
  | succ n ih =>
    intro acc
    simp only [Semantic.chunkLoop, if_pos hi, if_neg (not_le.mpr hbr), sub_self, add_zero]
    exact ih _

/-- C2: the claimed "emit once, stop" guard for `overlap ≥ maxTokens` does not
exist.  With `overlap = maxTokens` and an input longer than one window, both
chunkers' loops never terminate: for every fuel value the loop is still
running.  The lexical instance is `chunkText("a b c", 2, 2)` (3 words > 2, step
`maxTokens - overlap = 0`); the semantic instance is
`chunkText("a b c d e", 4, 4)` (5 words, window `⌊4·0.75⌋ = 3`, step 0, and the
in-loop `break` guard never fires because the window never reaches the end). -/
theorem chunkText_overlap_ge_budget_diverges (fuel : Nat) :
    TextSearch.chunkText "a b c" 2 2 fuel = none
      ∧ Semantic.chunkText "a b c d e" 4 4 fuel = none := by
  constructor
  · have hw : wordsOf "a b c" = ["a", "b", "c"] := by decide
    simp only [TextSearch.chunkText, hw]
    norm_num
    exact TextSearch.chunkLoopText_gap_zero (by norm_num) fuel []
  · have hw : wordsOf "a b c d e" = ["a", "b", "c", "d", "e"] := by decide
    have hf : Semantic.floor75 4 = 3 := by decide
    have hloop : Semantic.chunkLoop ["a", "b", "c", "d", "e"] 3 3 0 [] fuel = none :=
      Semantic.chunkLoopSem_gap_zero (by norm_num) (by norm_num) fuel []
    simp [Semantic.chunkText, hw, hf, hloop]

/-! Window structure of the chunker outputs. -/

/-- A slice `slice(i, i + k)` with non-negative endpoints is a block of at
most `k` consecutive elements starting at index `i`. -/
theorem jsSlice_window (l : List α) (i k : Int) (hi : 0 ≤ i) (hk : 0 ≤ k) :
    ∃ k' ≤ k.toNat, jsSlice l i (i + k) = (l.drop i.toNat).take k' := by
  have hik : ¬ i + k < 0 := by omega
  have hi' : ¬ i < 0 := by omega
  simp only [jsSlice, jsSliceIdx, if_neg hik, if_neg hi', List.drop_take]
  by_cases hle : i.toNat ≤ l.length
  · have h2 : min i.toNat l.length = i.toNat := Nat.min_eq_left hle
    refine ⟨min (i + k).toNat l.length - min i.toNat l.length, ?_, by rw [h2]⟩
    have h1 : min (i + k).toNat l.length ≤ (i + k).toNat := Nat.min_le_left _ _
    have h3 : (i + k).toNat = i.toNat + k.toNat := by omega
    omega
  · refine ⟨0, Nat.zero_le _, ?_⟩
    have h1 : min i.toNat l.length = l.length := Nat.min_eq_right (by omega)
    rw [h1, List.drop_length]
    simp

/-- Every token produced by `wsTokensAux` is non-empty and whitespace-free,
provided the accumulated current run is whitespace-free. -/
theorem wsTokensAux_tokens (cs : List Char) :
    ∀ (cur : List Char), (∀ c ∈ cur, ¬c.isWhitespace) →
      ∀ t ∈ wsTokensAux cs cur, t ≠ "" ∧ ∀ ch ∈ t.toList, ¬ch.isWhitespace := by
  induction cs with
  | nil =>
    intro cur hcur t ht
    simp only [wsTokensAux] at ht
    split at ht
    · simp at ht
    · rename_i hne
      simp only [List.mem_singleton] at ht
      subst ht
      refine ⟨?_, ?_⟩
      · intro h
        have : cur.reverse = [] := by simpa using congrArg String.data h
        simp [List.isEmpty_iff] at hne
        simp_all
      · intro ch hch
        exact hcur ch (by simpa using hch)
  | cons c cs ih =>
    intro cur hcur t ht
    simp only [wsTokensAux] at ht
    split at ht
    · split at ht
      · exact ih [] (by simp) t ht
      · rename_i hne
        rcases List.mem_cons.mp ht with h | h
        · subst h
          refine ⟨?_, ?_⟩
          · intro h
            have : cur.reverse = [] := by simpa using congrArg String.data h
            simp [List.isEmpty_iff] at hne
            simp_all
          · intro ch hch
            exact hcur ch (by simpa using hch)
        · exact ih [] (by simp) t h
    · rename_i hcws
      refine ih (c :: cur) ?_ t ht
      intro x hx
      rcases List.mem_cons.mp hx with h | h
      · subst h; simpa using hcws
      · exact hcur x h

/-- A character of a member list is a character of the space-join. -/
theorem mem_joinSp {ch : Char} :
    ∀ {ws : List (List Char)} {w : List Char}, w ∈ ws → ch ∈ w → ch ∈ joinSp ws
  | [], _, h, _ => by simp at h
  | [_], w, h, hch => by
      simp only [List.mem_singleton] at h
      subst h
      simpa [joinSp] using hch
  | w' :: w'' :: rest, w, h, hch => by
      rcases List.mem_cons.mp h with h | h
      · subst h
        exact List.mem_append.mpr (Or.inl hch)
      · have := mem_joinSp h hch
        exact List.mem_append.mpr (Or.inr (List.mem_cons.mpr (Or.inr this)))

/-- A non-`p` element survives `dropWhile p`. -/
theorem mem_dropWhile_of_not {p : α → Bool} {c : α} :
    ∀ {l : List α}, c ∈ l → ¬p c = true → c ∈ l.dropWhile p
  | [], h, _ => by simp at h
  | x :: xs, h, hc => by
      by_cases hx : p x = true
      · rw [List.dropWhile_cons_of_pos hx]
        rcases List.mem_cons.mp h with rfl | h
        · exact absurd hx hc
        · exact mem_dropWhile_of_not h hc
      · rw [List.dropWhile_cons_of_neg hx]
        exact h

/-- A string containing a non-whitespace character does not trim to `""`. -/
theorem jsTrim_ne_empty {s : String} {ch : Char} (hch : ch ∈ s.toList)
    (hws : ¬ch.isWhitespace) : jsTrim s ≠ "" := by
  intro h
  have hdata : (((s.toList.dropWhile Char.isWhitespace).reverse.dropWhile
      Char.isWhitespace).reverse) = [] := by
    simpa [jsTrim] using congrArg String.data h
  rw [List.reverse_eq_nil_iff, List.dropWhile_eq_nil_iff] at hdata
  have h1 : ch ∈ s.toList.dropWhile Char.isWhitespace :=
    mem_dropWhile_of_not hch (by simpa using hws)
  exact hws (by simpa using hdata ch (List.mem_reverse.mpr h1))

/-- A window containing a non-empty whitespace-free word does not trim to
`""` after joining with spaces. -/
theorem jsTrim_joinSpace_ne_empty {ws : List String} {w : String} (hmem : w ∈ ws)
    (hne : w ≠ "") (hfree : ∀ ch ∈ w.toList, ¬ch.isWhitespace) :
    jsTrim (joinSpace ws) ≠ "" := by
  obtain ⟨ch, hch⟩ : ∃ ch, ch ∈ w.toList := by
    cases h : w.toList with
    | nil => exact absurd (by simpa using congrArg String.mk h) hne
    | cons c cs => exact ⟨c, by simp [h]⟩
  have hj : ch ∈ (joinSpace ws).toList :=
    mem_joinSp (List.mem_map_of_mem String.toList hmem) hch
  exact jsTrim_ne_empty hj (hfree ch hch)

/-- With a positive step and enough fuel, the lexical window loop terminates,
appending only space-joined windows of at most `maxTokens` consecutive words
to the accumulator, and appends at least one chunk when the window at the
entry index survives trimming. -/
theorem TextSearch.chunkLoopText_spec (words : List String) (mt ov : Int)
    (hmt : 0 ≤ mt) (hstep : 0 < mt - ov) :
    ∀ (n : Nat) (i : Int) (acc : List String), 0 ≤ i →
      ((words.length : Int) - i).toNat < n →
      ∃ extra, TextSearch.chunkLoop words mt ov i acc n = some (acc ++ extra) ∧
        (∀ c ∈ extra, ∃ j k, k ≤ mt.toNat ∧ c = joinSpace ((words.drop j).take k)) ∧
        (i < (words.length : Int) →
          jsTrim (joinSpace (jsSlice words i (i + mt))) ≠ "" → extra ≠ []) := by
  intro n
  induction n with
  | zero => intro i acc _ h; omega
  | succ n ih =>
    intro i acc hi hfuel
    by_cases hlt : i < (words.length : Int)
    · obtain ⟨k', hk', hslice⟩ := jsSlice_window words i mt hi hmt
      have hi' : (0 : Int) ≤ i + (mt - ov) := by omega
      have hrec : ((words.length : Int) - (i + (mt - ov))).toNat < n := by omega
      simp only [TextSearch.chunkLoop, if_pos hlt]
      by_cases htr : jsTrim (joinSpace (jsSlice words i (i + mt))) ≠ ""
      · rw [if_pos htr]
        obtain ⟨extra, hloop, hwin, -⟩ :=
          ih (i + (mt - ov)) (acc ++ [joinSpace (jsSlice words i (i + mt))]) hi' hrec
        refine ⟨joinSpace (jsSlice words i (i + mt)) :: extra, ?_, ?_, fun _ _ => by simp⟩
        · rw [hloop]; simp
        · intro c hc
          rcases List.mem_cons.mp hc with rfl | hc
          · exact ⟨i.toNat, k', hk', by rw [hslice]⟩
          · exact hwin c hc
      · rw [if_neg htr]
        obtain ⟨extra, hloop, hwin, -⟩ := ih (i + (mt - ov)) acc hi' hrec
        exact ⟨extra, hloop, hwin, fun _ htr' => absurd htr' htr⟩
    · refine ⟨[], ?_, by simp, fun h => absurd h hlt⟩
      simp [TextSearch.chunkLoop, if_neg hlt]

/-- With a positive step and enough fuel, the semantic window loop terminates
(either by exhausting the words or through its `break`), appending only
trimmed space-joined windows of at most `wpc` consecutive words. -/
theorem Semantic.chunkLoopSem_spec (words : List String) (wpc ow : Int)
    (hwpc : 0 ≤ wpc) (hstep : 0 < wpc - ow) :
    ∀ (n : Nat) (i : Int) (acc : List String), 0 ≤ i →
      ((words.length : Int) - i).toNat < n →
      ∃ extra, Semantic.chunkLoop words wpc ow i acc n = some (acc ++ extra) ∧
        ∀ c ∈ extra, ∃ j k, k ≤ wpc.toNat ∧
          c = jsTrim (joinSpace ((words.drop j).take k)) := by
  intro n
  induction n with
  | zero => intro i acc _ h; omega
  | succ n ih =>
    intro i acc hi hfuel
    by_cases hlt : i < (words.length : Int)
    · obtain ⟨k', hk', hslice⟩ := jsSlice_window words i wpc hi hwpc
      have hwin0 : ∃ j k, k ≤ wpc.toNat ∧
          jsTrim (joinSpace (jsSlice words i (i + wpc))) =
            jsTrim (joinSpace ((words.drop j).take k)) :=
        ⟨i.toNat, k', hk', by rw [hslice]⟩
      simp only [Semantic.chunkLoop, if_pos hlt]
      by_cases htr : 0 < (jsTrim (joinSpace (jsSlice words i (i + wpc)))).length
      · rw [if_pos htr]
        by_cases hbr : (words.length : Int) ≤ i + wpc
        · rw [if_pos hbr]
          refine ⟨[jsTrim (joinSpace (jsSlice words i (i + wpc)))], rfl, ?_⟩
          intro c hc
          rcases List.mem_singleton.mp hc with rfl
          exact hwin0
        · rw [if_neg hbr]
          obtain ⟨extra, hloop, hwin⟩ := ih (i + (wpc - ow))
            (acc ++ [jsTrim (joinSpace (jsSlice words i (i + wpc)))]) (by omega) (by omega)
          refine ⟨jsTrim (joinSpace (jsSlice words i (i + wpc))) :: extra, ?_, ?_⟩
          · rw [hloop]; simp
          · intro c hc
            rcases List.mem_cons.mp hc with rfl | hc
            · exact hwin0
            · exact hwin c hc
      · rw [if_neg htr]
        by_cases hbr : (words.length : Int) ≤ i + wpc
        · rw [if_pos hbr]
          exact ⟨[], by simp, by simp⟩
        · rw [if_neg hbr]
          obtain ⟨extra, hloop, hwin⟩ := ih (i + (wpc - ow)) acc (by omega) (by omega)
          exact ⟨extra, hloop, hwin⟩
    · refine ⟨[], ?_, by simp⟩
      simp [Semantic.chunkLoop, if_neg hlt]

/-- `wordsOf` decomposes as an optional leading `""`, the whitespace-free
tokens, and an optional trailing `""`. -/
theorem wordsOf_decomp (s : String) :
    ∃ pre post, (pre = [] ∨ pre = [""]) ∧ (post = [] ∨ post = [""]) ∧
      wordsOf s = pre ++ wsTokensAux s.toList [] ++ post := by
  unfold wordsOf
  match h : s.toList with
  | [] => exact ⟨[], [""], Or.inl rfl, Or.inr rfl, by simp [wsTokensAux]⟩
  | c :: cs =>
    refine ⟨if c.isWhitespace then [""] else [], _, ?_, ?_, rfl⟩
    · split <;> simp
    · split <;> simp

/-- If `wordsOf text` has at least 3 elements, then any initial window of
`K ≥ 2` of its words contains a non-empty whitespace-free word. -/
theorem first_window_nonempty (text : String) (K : Nat) (hK : 2 ≤ K)
    (hlen : 3 ≤ (wordsOf text).length) :
    ∃ w ∈ (wordsOf text).take K, w ≠ "" ∧ ∀ ch ∈ w.toList, ¬ch.isWhitespace := by
  obtain ⟨pre, post, hpre, hpost, hdecomp⟩ := wordsOf_decomp text
  have hplen : pre.length ≤ 1 := by rcases hpre with rfl | rfl <;> simp
  have hqlen : post.length ≤ 1 := by rcases hpost with rfl | rfl <;> simp
  have hlen' := hlen
  rw [hdecomp, List.length_append, List.length_append] at hlen'
  obtain ⟨t, ts, htoks⟩ : ∃ t ts, wsTokensAux text.toList [] = t :: ts := by
    cases h : wsTokensAux text.toList [] with
    | nil => rw [h] at hlen'; simp at hlen'; omega
    | cons t ts => exact ⟨t, ts, rfl⟩
  have hts := wsTokensAux_tokens text.toList [] (by simp) t (by rw [htoks]; simp)
  refine ⟨t, ?_, hts.1, hts.2⟩
  obtain ⟨m, hm⟩ : ∃ m, K - pre.length = m + 1 := ⟨K - pre.length - 1, by omega⟩
  rw [hdecomp, htoks, List.take_append_eq_append_take, List.take_append_eq_append_take,
    hm, List.take_succ_cons]
  exact List.mem_append.mpr (Or.inl (List.mem_append.mpr (Or.inr (List.mem_cons_self _ _))))

/-- C4 counterexample: the lexical chunker's bound is `maxTokens` words, not
`⌊maxTokens·0.75⌋`: `chunkText("a b c d", 4, 1)` takes the short-text branch
and returns the whole text as one chunk of 4 words, exceeding
`⌊4·0.75⌋ = 3`. -/
theorem chunkText_word_bound_counterexample :
    TextSearch.chunkText "a b c d" 4 1 5 = some ["a b c d"]
      ∧ (wordsOf "a b c d").length = 4
      ∧ Semantic.floor75 4 = 3
      ∧ ¬((wordsOf "a b c d").length ≤ 3) :=
  ⟨by decide, by decide, by decide, by decide⟩

/-- C4 amended: with a positive window step (`overlap < maxTokens`, and
`maxTokens ≥ 2` for the lexical engine), both chunkers terminate and return at
least one chunk for every input (in particular every non-empty one).  Each
lexical chunk is either the whole input — whose word count is then at most
`maxTokens`, the lexical engine's actual bound — or the space-join of at most
`maxTokens` consecutive words.  Each semantic chunk is the trimmed space-join
of at most `⌊maxTokens·0.75⌋` consecutive words, except for the whole-text
fallback emitted when every window trimmed to the empty string. -/
theorem chunkText_bounds_amended (text : String) (mt ov : Int) :
    (2 ≤ mt → ov < mt →
      ∃ l, TextSearch.chunkText text mt ov ((wordsOf text).length + 1) = some l ∧
        l ≠ [] ∧
        ∀ c ∈ l, (c = text ∧ (wordsOf text).length ≤ mt.toNat) ∨
          ∃ j k, k ≤ mt.toNat ∧ c = joinSpace (((wordsOf text).drop j).take k))
    ∧ (0 ≤ ov → Semantic.floor75 ov < Semantic.floor75 mt →
      ∃ l, Semantic.chunkText text mt ov ((wordsOf text).length + 1) = some l ∧
        l ≠ [] ∧
        ∀ c ∈ l, (∃ j k, k ≤ (Semantic.floor75 mt).toNat ∧
            c = jsTrim (joinSpace (((wordsOf text).drop j).take k))) ∨ c = text) := by
  constructor
  · intro hmt hov
    by_cases hshort : ((wordsOf text).length : Int) ≤ mt
    · refine ⟨[text], by simp [TextSearch.chunkText, if_pos hshort], by simp, ?_⟩
      intro c hc
      rcases List.mem_singleton.mp hc with rfl
      exact Or.inl ⟨rfl, by omega⟩
    · obtain ⟨extra, hloop, hwin, hne⟩ := TextSearch.chunkLoopText_spec (wordsOf text) mt ov
        (by omega) (by omega) ((wordsOf text).length + 1) 0 [] le_rfl (by omega)
      have hlen3 : 3 ≤ (wordsOf text).length := by omega
      have hminK : 2 ≤ min mt.toNat (wordsOf text).length := by omega
      obtain ⟨w, hwmem, hwne, hwfree⟩ :=
        first_window_nonempty text (min mt.toNat (wordsOf text).length) hminK hlen3
      have hslice0 : jsSlice (wordsOf text) 0 (0 + mt) =
          (wordsOf text).take (min mt.toNat (wordsOf text).length) := by
        simp only [jsSlice, jsSliceIdx, zero_add]
        rw [if_neg (by omega : ¬mt < (0 : Int)), if_neg (by omega : ¬(0 : Int) < 0)]
        simp [List.take_take]
      have hfirst : jsTrim (joinSpace (jsSlice (wordsOf text) 0 (0 + mt))) ≠ "" := by
        rw [hslice0]
        exact jsTrim_joinSpace_ne_empty hwmem hwne hwfree
      refine ⟨extra, ?_, hne (by omega) hfirst, ?_⟩
      · simpa [TextSearch.chunkText, if_neg hshort] using hloop
      · intro c hc
        exact Or.inr (hwin c hc)
  · intro hov hlt75
    have h0ow : 0 ≤ Semantic.floor75 ov :=
      Int.fdiv_nonneg (by omega) (by omega)
    obtain ⟨extra, hloop, hwin⟩ := Semantic.chunkLoopSem_spec (wordsOf text)
      (Semantic.floor75 mt) (Semantic.floor75 ov) (by omega) (by omega)
      ((wordsOf text).length + 1) 0 [] le_rfl (by omega)
    refine ⟨if 0 < extra.length then extra else [text], ?_, ?_, ?_⟩
    · simp only [Semantic.chunkText]
      rw [hloop]
      simp
    · split
      · rename_i h
        exact List.length_pos.mp h
      · simp
    · intro c hc
      split at hc
      · exact Or.inl (hwin c hc)
      · rcases List.mem_singleton.mp hc with rfl
        exact Or.inr rfl

/-- Witness for the amended C4 theorem at `("a b c", 4, 1)`: both sets of
hypotheses are satisfiable and both conclusions hold there. -/
theorem chunkText_bounds_amended_witness :
    ((2 : Int) ≤ 4 ∧ (1 : Int) < 4 ∧
      ∃ l, TextSearch.chunkText "a b c" 4 1 ((wordsOf "a b c").length + 1) = some l ∧
        l ≠ [] ∧
        ∀ c ∈ l, (c = "a b c" ∧ (wordsOf "a b c").length ≤ (4 : Int).toNat) ∨
          ∃ j k, k ≤ (4 : Int).toNat ∧
            c = joinSpace (((wordsOf "a b c").drop j).take k))
    ∧ ((0 : Int) ≤ 1 ∧ Semantic.floor75 1 < Semantic.floor75 4 ∧
      ∃ l, Semantic.chunkText "a b c" 4 1 ((wordsOf "a b c").length + 1) = some l ∧
        l ≠ [] ∧
        ∀ c ∈ l, (∃ j k, k ≤ (Semantic.floor75 4).toNat ∧
            c = jsTrim (joinSpace (((wordsOf "a b c").drop j).take k))) ∨
          c = "a b c") :=
  ⟨⟨by norm_num, by norm_num,
    (chunkText_bounds_amended "a b c" 4 1).1 (by norm_num) (by norm_num)⟩,
   ⟨by norm_num, by decide,
    (chunkText_bounds_amended "a b c" 4 1).2 (by norm_num) (by decide)⟩⟩

/-! Content extraction (`extractTextFromContent`, identical in
`docc-manager.ts` and the semantic search engine). -/

/-- A node of the DocC content tree as probed by `extractTextFromContent`: an
object carrying the optional fields the extractor looks at.  `none` models an
absent/undefined field, `some ""` a present but empty (hence JS-falsy)
string. -/
inductive ContentNode where
  | mk (type? : Option String) (text? : Option String) (code? : Option String)
      (inlineContent? : Option (List ContentNode))
      (content? : Option (List ContentNode))

/-- JS truthiness of a string-or-undefined value. -/
def truthyS (o : Option String) : Bool := o.getD "" ≠ ""

/-- The accumulation loop of `extractTextFromContent`: text leaves and
code-voice leaves contribute their payload plus a space; nodes exposing
`inlineContent` or `content` contribute the (trimmed) recursive extraction
plus a space (the source's `paragraph` branch has the same body as its
generic `inlineContent` branch); all other nodes contribute nothing. -/
def extractGo : List ContentNode → String
  | [] => ""
  | ContentNode.mk t tx cd ic ct :: rest =>
    (if t == some "text" && truthyS tx then tx.getD "" ++ " "
     else if t == some "codeVoice" && truthyS cd then cd.getD "" ++ " "
     else match ic, ct with
       | some l, _ => jsTrim (extractGo l) ++ " "
       | none, some l => jsTrim (extractGo l) ++ " "
       | none, none => "") ++ extractGo rest

/-- `extractTextFromContent(content)`: returns `""` for a non-array argument
(modelled as `none`), otherwise the trimmed accumulation over the nodes. -/
def extractTextFromContent (content : Option (List ContentNode)) : String :=
  match content with
  | none => ""
  | some l => jsTrim (extractGo l)

example : extractTextFromContent (some [ContentNode.mk (some "text") (some "hi") none none none,
  ContentNode.mk (some "codeVoice") none (some "x()") none none]) = "hi x()" := by
  simp [extractTextFromContent, extractGo, truthyS]
  decide

/-- C8: the content extractor never fails on its input domain — non-array
values (modelled as `none`), empty arrays, and nodes with any or all optional
fields missing — and a non-array or empty content tree always yields the
empty string; nodes with all optional fields absent contribute nothing. -/
theorem extractTextFromContent_safe :
    extractTextFromContent none = ""
      ∧ extractTextFromContent (some []) = ""
      ∧ ∀ l : List ContentNode,
          (∀ n ∈ l, n = ContentNode.mk none none none none none) →
          extractTextFromContent (some l) = "" := by
  have hgo : ∀ l : List ContentNode,
      (∀ n ∈ l, n = ContentNode.mk none none none none none) → extractGo l = "" := by
    intro l
    induction l with
    | nil => intro _; simp [extractGo]
    | cons n rest ih =>
      intro h
      have hn := h n (List.mem_cons_self _ _)
      subst hn
      simp only [extractGo, ih fun m hm => h m (List.mem_cons_of_mem _ hm)]
      decide
  refine ⟨rfl, ?_, ?_⟩
  · simp [extractTextFromContent, hgo [] (by simp)]
    decide
  · intro l h
    simp [extractTextFromContent, hgo l h]
    decide

/-- Witness for C8 at a two-node list with all fields missing. -/
theorem extractTextFromContent_safe_witness :
    (∀ n ∈ [ContentNode.mk none none none none none,
        ContentNode.mk none none none none none],
      n = ContentNode.mk none none none none none)
    ∧ extractTextFromContent (some [ContentNode.mk none none none none none,
        ContentNode.mk none none none none none]) = "" := by
  have hmem : ∀ n ∈ [ContentNode.mk none none none none none,
      ContentNode.mk none none none none none],
      n = ContentNode.mk none none none none none := by
    intro n hn
    simp only [List.mem_cons, List.not_mem_nil, or_false] at hn
    rcases hn with rfl | rfl <;> rfl
  exact ⟨hmem, extractTextFromContent_safe.2.2 _ hmem⟩

/-! The semantic engine's `processDocCContent` (chunk registration with
per-category minimum lengths). -/

/-- Chunk provenance metadata (the `metadata` field of a content chunk;
identical interface in both engines). -/
structure ChunkMeta where
  archive : String
  symbolId : Option String
  title : String
  kind : String
  url : String
deriving DecidableEq

/-- A content chunk produced for indexing. -/
structure ContentChunk where
  content : String
  metadata : ChunkMeta
deriving DecidableEq

/-- JS `a || b` for a string-or-undefined `a` (`""` and `undefined` are
falsy). -/
def jsOr (o : Option String) (d : String) : String :=
  match o with
  | some s => if s = "" then d else s
  | none => d

/-- JS `endsWith`: is `t` a suffix of `s`? -/
def hasSuffix (s t : String) : Bool := t.toList.isSuffixOf s.toList

/-- Number of chunks whose kind string carries the given category suffix. -/
def countKindSuffix (l : List ContentChunk) (suf : String) : Nat :=
  (l.filter fun c => hasSuffix c.metadata.kind suf).length

theorem countKindSuffix_append (l₁ l₂ : List ContentChunk) (suf : String) :
    countKindSuffix (l₁ ++ l₂) suf =
      countKindSuffix l₁ suf + countKindSuffix l₂ suf := by
  simp [countKindSuffix, List.filter_append]

theorem countKindSuffix_eq_zero {l : List ContentChunk} {suf : String}
    (h : ∀ c ∈ l, hasSuffix c.metadata.kind suf = false) :
    countKindSuffix l suf = 0 := by
  simp only [countKindSuffix, List.length_eq_zero, List.filter_eq_nil_iff]
  exact fun c hc => by simp [h c hc]

/-- Category tags appended to a kind string are distinguished by their final
character: `s ++ b` never ends with `a` when `a` and `b` end differently. -/
theorem hasSuffix_append_ne {k b a : String} (ha : a.toList ≠ [])
    (hb : b.toList ≠ []) (hne : a.toList.getLast? ≠ b.toList.getLast?) :
    hasSuffix (k ++ b) a = false := by
  apply Bool.eq_false_iff.mpr
  intro h
  rw [hasSuffix, List.isSuffixOf_iff_suffix] at h
  obtain ⟨t, ht⟩ := h
  obtain ⟨x, hx⟩ := Option.isSome_iff_exists.mp (List.getLast?_isSome.mpr ha)
  obtain ⟨y, hy⟩ := Option.isSome_iff_exists.mp (List.getLast?_isSome.mpr hb)
  have hlast : (t ++ a.toList).getLast? = a.toList.getLast? := by
    rw [List.getLast?_append, hx]
    rfl
  rw [ht, show (k ++ b).toList = k.toList ++ b.toList from String.data_append k b,
    List.getLast?_append, hy] at hlast
  have hlast' : some y = a.toList.getLast? := hlast
  exact hne (hlast'.symm.trans hy.symm)

namespace Semantic

/-- `chunkText` at the semantic engine's default parameters `(500, 50)`.  The
window step is `⌊500·0.75⌋ - ⌊50·0.75⌋ = 375 - 37 = 338 > 0`, so by
`Semantic.chunkLoopSem_spec` the loop terminates within `words.length + 1`
rounds; the `getD []` fallback is unreachable (`chunkTextD_eq`). -/
def chunkTextD (text : String) : List String :=
  (chunkText text 500 50 ((wordsOf text).length + 1)).getD []

theorem chunkTextD_eq (text : String) :
    chunkText text 500 50 ((wordsOf text).length + 1) = some (chunkTextD text) := by
  obtain ⟨extra, hloop, -⟩ := chunkLoopSem_spec (wordsOf text) (floor75 500) (floor75 50)
    (by decide) (by decide) ((wordsOf text).length + 1) 0 [] le_rfl (by omega)
  simp [chunkTextD, chunkText, hloop]

/-- One entry of a `parameters` content section. -/
structure Param where
  name : Option String
  content : Option (List ContentNode)

/-- One entry of `primaryContentSections`. -/
structure DocSection where
  kind : Option String
  content : Option (List ContentNode)
  parameters : Option (List Param)

/-- The fields of a DocC symbol document read by `processDocCContent`
(`metaTitle`/`metaSymbolKind` model `symbol.metadata?.title` and
`symbol.metadata?.symbolKind`; `abstract` is `some _` exactly when
`symbol.abstract` is an array). -/
structure DocCSymbol where
  identifierUrl : Option String
  metaTitle : Option String
  metaSymbolKind : Option String
  kind : Option String
  abstract : Option (List ContentNode)
  primaryContentSections : Option (List DocSection)

/-- The discussion chunks contributed by one content section: when the section
is a `content` section with a content array whose extracted text is longer
than 50 characters, the text is chunked and each piece becomes a
`<kind>-discussion` chunk (numbered when there are several). -/
def discussionChunks (title kind : String) (base : ChunkMeta) (s : DocSection) :
    List ContentChunk :=
  match s.kind == some "content", s.content with
  | true, some c =>
    let discussionText := extractTextFromContent (some c)
    if 50 < discussionText.length then
      let textChunks := chunkTextD discussionText
      textChunks.enum.map fun p =>
        ⟨title ++ " - Discussion" ++
            (if 1 < textChunks.length then " (" ++ toString (p.1 + 1) ++ ")" else "")
            ++ ": " ++ p.2,
          { base with kind := kind ++ "-discussion" }⟩
    else []
  | _, _ => []

/-- The parameter chunks contributed by one parameters section: one
`<kind>-parameter` chunk per parameter whose extracted note is longer than 20
characters (a missing `param.name` renders as JS string interpolation's
`"undefined"`). -/
def parameterChunks (title kind : String) (base : ChunkMeta) (s : DocSection) :
    List ContentChunk :=
  match s.kind == some "parameters", s.parameters with
  | true, some ps =>
    ps.flatMap fun p =>
      match p.content with
      | some pc =>
        let paramText := extractTextFromContent (some pc)
        if 20 < paramText.length then
          [⟨title ++ " - Parameter " ++ p.name.getD "undefined" ++ ": " ++ paramText,
            { base with kind := kind ++ "-parameter" }⟩]
        else []
      | none => []
  | _, _ => []

/-- The main-abstract chunk of `processDocCContent`: registered only when the
abstract is an array (`some _`) whose extracted text exceeds 50 characters. -/
def abstractChunks (title kind : String) (base : ChunkMeta)
    (a? : Option (List ContentNode)) : List ContentChunk :=
  match a? with
  | some abs =>
    let abstractText := extractTextFromContent (some abs)
    if 50 < abstractText.length then
      [⟨title ++ ": " ++ abstractText, { base with kind := kind ++ "-abstract" }⟩]
    else []
  | none => []

/-- The per-section chunks of `processDocCContent` (the
`for (const section of symbol.primaryContentSections)` loop: each iteration
contributes its discussion chunks followed by its parameter chunks). -/
def sectionChunks (title kind : String) (base : ChunkMeta)
    (pcs? : Option (List DocSection)) : List ContentChunk :=
  match pcs? with
  | some secs => secs.flatMap fun s =>
      discussionChunks title kind base s ++ parameterChunks title kind base s
  | none => []

/-- `SemanticSearchEngine.processDocCContent(symbol, archiveName)`: an
abstract chunk when the extracted abstract exceeds 50 characters, then per
section the discussion chunks (50-character floor) and parameter chunks
(20-character floor). -/
def processDocCContent (sym : DocCSymbol) (archiveName : String) :
    List ContentChunk :=
  let title := jsOr sym.metaTitle "Unknown"
  let kind := jsOr sym.metaSymbolKind (jsOr sym.kind "unknown")
  let base : ChunkMeta :=
    ⟨archiveName, sym.identifierUrl, title, kind, jsOr sym.identifierUrl ""⟩
  abstractChunks title kind base sym.abstract ++
    sectionChunks title kind base sym.primaryContentSections

theorem discussionChunks_kind (title kind : String) (base : ChunkMeta)
    (s : DocSection) :
    ∀ c ∈ discussionChunks title kind base s,
      c.metadata.kind = kind ++ "-discussion" := by
  intro c hc
  unfold discussionChunks at hc
  split at hc
  · simp only [] at hc
    split at hc
    · rw [List.mem_map] at hc
      obtain ⟨p, -, rfl⟩ := hc
      rfl
    · simp at hc
  · simp at hc

theorem parameterChunks_kind (title kind : String) (base : ChunkMeta)
    (s : DocSection) :
    ∀ c ∈ parameterChunks title kind base s,
      c.metadata.kind = kind ++ "-parameter" := by
  intro c hc
  unfold parameterChunks at hc
  split at hc
  · rw [List.mem_flatMap] at hc
    obtain ⟨p, -, hc⟩ := hc
    split at hc
    · simp only [] at hc
      split at hc
      · rw [List.mem_singleton] at hc
        subst hc
        rfl
      · simp at hc
    · simp at hc
  · simp at hc

theorem discussionChunks_eq_nil {title kind : String} {base : ChunkMeta}
    {s : DocSection}
    (h : ∀ c, s.content = some c → (extractTextFromContent (some c)).length < 50) :
    discussionChunks title kind base s = [] := by
  cases hk : s.kind == some "content" <;> cases hc : s.content <;>
    simp only [discussionChunks, hk, hc] <;> try rfl
  rename_i c
  rw [if_neg (by have := h c hc; omega)]

theorem parameterChunks_eq_nil {title kind : String} {base : ChunkMeta}
    {s : DocSection}
    (h : ∀ ps, s.parameters = some ps → ∀ p ∈ ps, ∀ pc, p.content = some pc →
      (extractTextFromContent (some pc)).length < 20) :
    parameterChunks title kind base s = [] := by
  cases hk : s.kind == some "parameters" <;> cases hp : s.parameters <;>
    simp only [parameterChunks, hk, hp] <;> try rfl
  rename_i ps
  rw [List.eq_nil_iff_forall_not_mem]
  intro c hc
  rw [List.mem_flatMap] at hc
  obtain ⟨p, hpmem, hc⟩ := hc
  rcases hpc : p.content with _ | pc
  · rw [hpc] at hc
    simp at hc
  · rw [hpc] at hc
    simp only at hc
    rw [if_neg (by have := h ps hp p hpmem pc hpc; omega)] at hc
    simp at hc

theorem abstractChunks_kind (title kind : String) (base : ChunkMeta)
    (a? : Option (List ContentNode)) :
    ∀ c ∈ abstractChunks title kind base a?,
      c.metadata.kind = kind ++ "-abstract" := by
  intro c hc
  unfold abstractChunks at hc
  split at hc
  · simp only [] at hc
    split at hc
    · rw [List.mem_singleton] at hc
      subst hc
      rfl
    · simp at hc
  · simp at hc

theorem sectionChunks_count (title kind : String) (base : ChunkMeta)
    (pcs? : Option (List DocSection)) (suf : String)
    (hd : hasSuffix (kind ++ "-discussion") suf = false)
    (hp : hasSuffix (kind ++ "-parameter") suf = false) :
    countKindSuffix (sectionChunks title kind base pcs?) suf = 0 := by
  apply countKindSuffix_eq_zero
  intro c hc
  unfold sectionChunks at hc
  split at hc
  · rw [List.mem_flatMap] at hc
    obtain ⟨s, -, hc⟩ := hc
    rcases List.mem_append.mp hc with h | h
    · rw [discussionChunks_kind title kind base s c h]
      exact hd
    · rw [parameterChunks_kind title kind base s c h]
      exact hp
  · simp at hc

theorem abstractChunks_count (title kind : String) (base : ChunkMeta)
    (a? : Option (List ContentNode)) (suf : String)
    (ha : hasSuffix (kind ++ "-abstract") suf = false) :
    countKindSuffix (abstractChunks title kind base a?) suf = 0 := by
  apply countKindSuffix_eq_zero
  intro c hc
  rw [abstractChunks_kind title kind base a? c hc]
  exact ha

theorem abstractChunks_eq_nil {title kind : String} {base : ChunkMeta}
    {a? : Option (List ContentNode)}
    (h : ∀ abs, a? = some abs → (extractTextFromContent (some abs)).length < 50) :
    abstractChunks title kind base a? = [] := by
  cases ha : a? with
  | none => rfl
  | some abs =>
    simp only [abstractChunks]
    rw [if_neg (by have := h abs ha; omega)]

theorem sectionChunks_eq_nil_count {title kind : String} {base : ChunkMeta}
    {pcs? : Option (List DocSection)} {suf : String}
    (hdisc : ∀ secs, pcs? = some secs →
      ∀ s ∈ secs, discussionChunks title kind base s = [])
    (hp : hasSuffix (kind ++ "-parameter") suf = false) :
    countKindSuffix (sectionChunks title kind base pcs?) suf = 0 := by
  apply countKindSuffix_eq_zero
  intro c hc
  cases hq : pcs? with
  | none => rw [hq] at hc; simp [sectionChunks] at hc
  | some secs =>
    rw [hq] at hc
    simp only [sectionChunks] at hc
    rw [List.mem_flatMap] at hc
    obtain ⟨s, hs, hc⟩ := hc
    rcases List.mem_append.mp hc with h | h
    · rw [hdisc secs hq s hs] at h
      simp at h
    · rw [parameterChunks_kind title kind base s c h]
      exact hp

theorem abstractChunks_mem {title kind : String} {base : ChunkMeta}
    {a? : Option (List ContentNode)} {c : ContentChunk}
    (hc : c ∈ abstractChunks title kind base a?) :
    ∃ abs, a? = some abs ∧ 50 < (extractTextFromContent (some abs)).length := by
  unfold abstractChunks at hc
  split at hc
  · rename_i abs
    simp only [] at hc
    split at hc
    · rename_i hlen
      rw [List.mem_singleton] at hc
      exact ⟨abs, rfl, hlen⟩
    · simp at hc
  · simp at hc

theorem discussionChunks_mem {title kind : String} {base : ChunkMeta}
    {s : DocSection} {c : ContentChunk}
    (hc : c ∈ discussionChunks title kind base s) :
    ∃ cn, s.content = some cn ∧ 50 < (extractTextFromContent (some cn)).length := by
  unfold discussionChunks at hc
  split at hc
  · rename_i cn hk hcn
    simp only [] at hc
    split at hc
    · rename_i hlen
      exact ⟨cn, hcn, hlen⟩
    · simp at hc
  · simp at hc

theorem parameterChunks_mem {title kind : String} {base : ChunkMeta}
    {s : DocSection} {c : ContentChunk}
    (hc : c ∈ parameterChunks title kind base s) :
    ∃ ps, s.parameters = some ps ∧ ∃ p ∈ ps, ∃ pc, p.content = some pc ∧
      20 < (extractTextFromContent (some pc)).length := by
  unfold parameterChunks at hc
  split at hc
  · rename_i ps hk hps
    rw [List.mem_flatMap] at hc
    obtain ⟨p, hp, hc⟩ := hc
    rcases hpc : p.content with _ | pc
    · rw [hpc] at hc
      simp at hc
    · rw [hpc] at hc
      simp only [] at hc
      split at hc
      · rename_i hlen
        rw [List.mem_singleton] at hc
        exact ⟨ps, hps, p, hp, pc, hpc, hlen⟩
      · simp at hc
  · simp at hc

theorem sectionChunks_param_nil_count {title kind : String} {base : ChunkMeta}
    {pcs? : Option (List DocSection)} {suf : String}
    (hpar : ∀ secs, pcs? = some secs →
      ∀ s ∈ secs, parameterChunks title kind base s = [])
    (hd : hasSuffix (kind ++ "-discussion") suf = false) :
    countKindSuffix (sectionChunks title kind base pcs?) suf = 0 := by
  apply countKindSuffix_eq_zero
  intro c hc
  cases hq : pcs? with
  | none => rw [hq] at hc; simp [sectionChunks] at hc
  | some secs =>
    rw [hq] at hc
    simp only [sectionChunks] at hc
    rw [List.mem_flatMap] at hc
    obtain ⟨s, hs, hc⟩ := hc
    rcases List.mem_append.mp hc with h | h
    · rw [discussionChunks_kind title kind base s c h]
      exact hd
    · rw [hpar secs hq s hs] at h
      simp at h

end Semantic

/-- A single `text` leaf node carrying `s`. -/
def textNode (s : String) : ContentNode :=
  ContentNode.mk (some "text") (some s) none none none

/-- A 40-character abstract payload. -/
def abs40 : String := "0123456789012345678901234567890123456789"

/-- A 51-character abstract payload. -/
def abs51 : String := "012345678901234567890123456789012345678901234567890"

/-- Boundary-scenario symbol: title `"T"`, no content sections, an abstract of
exactly 40 characters. -/
def symAbs40 : Semantic.DocCSymbol :=
  ⟨none, some "T", none, none, some [textNode abs40], none⟩

/-- Boundary-scenario symbol with an abstract of exactly 51 characters. -/
def symAbs51 : Semantic.DocCSymbol :=
  ⟨none, some "T", none, none, some [textNode abs51], none⟩

/-- C7: a chunk below its category's minimum length is never registered by
`processDocCContent`, for every symbol document (including ones mixing long
and short texts): besides the below-floor abstract never producing an
abstract chunk, every registered chunk of a category originates from a text
above that category's floor — an abstract chunk only exists when the
extracted abstract exceeds 50 characters, every discussion chunk comes from a
content section whose extracted text exceeds 50 characters, and every
parameter chunk from a parameter note whose extracted text exceeds 20
characters; in particular an abstract of exactly 40 characters produces no
abstract chunk and one of 51 characters produces exactly one. -/
theorem processDocCContent_min_lengths :
    (∀ (sym : Semantic.DocCSymbol) (archive : String) (abs : List ContentNode),
        sym.abstract = some abs →
        (extractTextFromContent (some abs)).length < 50 →
        countKindSuffix (Semantic.processDocCContent sym archive) "-abstract" = 0)
    ∧ (∀ (sym : Semantic.DocCSymbol) (archive : String),
        ∀ c ∈ Semantic.processDocCContent sym archive,
          (hasSuffix c.metadata.kind "-abstract" = true →
            ∃ abs, sym.abstract = some abs ∧
              50 < (extractTextFromContent (some abs)).length)
          ∧ (hasSuffix c.metadata.kind "-discussion" = true →
            ∃ secs, sym.primaryContentSections = some secs ∧
              ∃ s ∈ secs, ∃ cn, s.content = some cn ∧
                50 < (extractTextFromContent (some cn)).length)
          ∧ (hasSuffix c.metadata.kind "-parameter" = true →
            ∃ secs, sym.primaryContentSections = some secs ∧
              ∃ s ∈ secs, ∃ ps, s.parameters = some ps ∧
                ∃ p ∈ ps, ∃ pc, p.content = some pc ∧
                  20 < (extractTextFromContent (some pc)).length))
    ∧ Semantic.processDocCContent symAbs40 "SwiftUI" = []
    ∧ Semantic.processDocCContent symAbs51 "SwiftUI" =
        [⟨"T: " ++ abs51, ⟨"SwiftUI", none, "T", "unknown-abstract", ""⟩⟩] := by
  have noSuffix : ∀ (k b a : String), a.toList ≠ [] → b.toList ≠ [] →
      a.toList.getLast? ≠ b.toList.getLast? →
      hasSuffix (k ++ b) a = true → False := by
    intro k b a h1 h2 h3 h
    rw [hasSuffix_append_ne h1 h2 h3] at h
    cases h
  refine ⟨?_, ?_, ?_, ?_⟩
  · intro sym archive abs habs hlen
    simp only [Semantic.processDocCContent, countKindSuffix_append]
    rw [Semantic.abstractChunks_eq_nil
      (fun a ha => by rw [habs] at ha; obtain rfl := Option.some.inj ha; exact hlen)]
    rw [Semantic.sectionChunks_count _ _ _ _ _
      (hasSuffix_append_ne (by decide) (by decide) (by decide))
      (hasSuffix_append_ne (by decide) (by decide) (by decide))]
    simp [countKindSuffix]
  · intro sym archive c hc
    simp only [Semantic.processDocCContent] at hc
    rcases List.mem_append.mp hc with habs | hsec
    · have hkind := Semantic.abstractChunks_kind _ _ _ _ c habs
      obtain ⟨abs, ha, hlen⟩ := Semantic.abstractChunks_mem habs
      refine ⟨fun _ => ⟨abs, ha, hlen⟩, ?_, ?_⟩
      · intro hsuf
        rw [hkind] at hsuf
        exact ((noSuffix _ _ _ (by decide) (by decide) (by decide)) hsuf).elim
      · intro hsuf
        rw [hkind] at hsuf
        exact ((noSuffix _ _ _ (by decide) (by decide) (by decide)) hsuf).elim
    · rcases hq : sym.primaryContentSections with _ | secs
      · rw [hq] at hsec
        simp [Semantic.sectionChunks] at hsec
      · rw [hq] at hsec
        simp only [Semantic.sectionChunks] at hsec
        rw [List.mem_flatMap] at hsec
        obtain ⟨s, hs, hcs⟩ := hsec
        rcases List.mem_append.mp hcs with hd | hp
        · have hkind := Semantic.discussionChunks_kind _ _ _ _ c hd
          obtain ⟨cn, hcn, hlen⟩ := Semantic.discussionChunks_mem hd
          refine ⟨?_, fun _ => ⟨secs, rfl, s, hs, cn, hcn, hlen⟩, ?_⟩
          · intro hsuf
            rw [hkind] at hsuf
            exact ((noSuffix _ _ _ (by decide) (by decide) (by decide)) hsuf).elim
          · intro hsuf
            rw [hkind] at hsuf
            exact ((noSuffix _ _ _ (by decide) (by decide) (by decide)) hsuf).elim
        · have hkind := Semantic.parameterChunks_kind _ _ _ _ c hp
          obtain ⟨ps, hps, p, hpmem, pc, hpc, hlen⟩ := Semantic.parameterChunks_mem hp
          refine ⟨?_, ?_, fun _ => ⟨secs, rfl, s, hs, ps, hps, p, hpmem, pc, hpc, hlen⟩⟩
          · intro hsuf
            rw [hkind] at hsuf
            exact ((noSuffix _ _ _ (by decide) (by decide) (by decide)) hsuf).elim
          · intro hsuf
            rw [hkind] at hsuf
            exact ((noSuffix _ _ _ (by decide) (by decide) (by decide)) hsuf).elim
  · have hex : extractTextFromContent (some [textNode abs40]) = abs40 := by
      simp only [extractTextFromContent, extractGo, textNode]
      decide
    simp only [Semantic.processDocCContent, symAbs40, jsOr, Semantic.abstractChunks,
      Semantic.sectionChunks, hex]
    decide
  · have hex : extractTextFromContent (some [textNode abs51]) = abs51 := by
      simp only [extractTextFromContent, extractGo, textNode]
      decide
    simp only [Semantic.processDocCContent, symAbs51, jsOr, Semantic.abstractChunks,
      Semantic.sectionChunks, hex]
    decide

/-- A 60-character discussion payload. -/
def disc60 : String :=
  "012345678901234567890123456789012345678901234567890123456789"

/-- A 25-character parameter-note payload. -/
def par25 : String := "0123456789012345678901234"

/-- A symbol with one `content` section whose extracted text has 60
characters. -/
def symDisc : Semantic.DocCSymbol :=
  ⟨none, some "T", none, none, none,
    some [⟨some "content", some [textNode disc60], none⟩]⟩

/-- A symbol with one `parameters` section holding one parameter whose note
has 25 characters. -/
def symPar : Semantic.DocCSymbol :=
  ⟨none, some "T", none, none, none,
    some [⟨some "parameters", none, some [⟨some "x", some [textNode par25]⟩]⟩]⟩

theorem processDocC_symDisc_eq :
    Semantic.processDocCContent symDisc "A" =
      [⟨"T - Discussion: " ++ disc60, ⟨"A", none, "T", "unknown-discussion", ""⟩⟩] := by
  have hex : extractTextFromContent (some [textNode disc60]) = disc60 := by
    simp only [extractTextFromContent, extractGo, textNode]
    decide
  have hb1 : (some "content" == some "content" : Bool) = true := rfl
  have hb2 : (some "content" == some "parameters" : Bool) = false := rfl
  simp only [Semantic.processDocCContent, symDisc, jsOr, Semantic.abstractChunks,
    Semantic.sectionChunks, List.flatMap_cons, List.flatMap_nil,
    Semantic.discussionChunks, Semantic.parameterChunks, hb1, hb2, hex]
  decide

theorem processDocC_symPar_eq :
    Semantic.processDocCContent symPar "A" =
      [⟨"T - Parameter x: " ++ par25, ⟨"A", none, "T", "unknown-parameter", ""⟩⟩] := by
  have hex : extractTextFromContent (some [textNode par25]) = par25 := by
    simp only [extractTextFromContent, extractGo, textNode]
    decide
  have hb1 : (some "parameters" == some "content" : Bool) = false := rfl
  have hb2 : (some "parameters" == some "parameters" : Bool) = true := rfl
  simp only [Semantic.processDocCContent, symPar, jsOr, Semantic.abstractChunks,
    Semantic.sectionChunks, List.flatMap_cons, List.flatMap_nil,
    Semantic.discussionChunks, Semantic.parameterChunks, hb1, hb2, hex]
  decide

/-- Witness for C7: the abstract-count part at `symAbs40` (abstract of 40
characters), and the per-chunk part at a registered abstract chunk
(`symAbs51`), a registered discussion chunk (`symDisc`, 60-character section
text), and a registered parameter chunk (`symPar`, 25-character note). -/
theorem processDocCContent_min_lengths_witness :
    (symAbs40.abstract = some [textNode abs40]
      ∧ (extractTextFromContent (some [textNode abs40])).length < 50
      ∧ countKindSuffix (Semantic.processDocCContent symAbs40 "SwiftUI") "-abstract" = 0)
    ∧ ((⟨"T: " ++ abs51, ⟨"SwiftUI", none, "T", "unknown-abstract", ""⟩⟩ : ContentChunk)
          ∈ Semantic.processDocCContent symAbs51 "SwiftUI"
      ∧ hasSuffix "unknown-abstract" "-abstract" = true
      ∧ ∃ abs, symAbs51.abstract = some abs ∧
          50 < (extractTextFromContent (some abs)).length)
    ∧ ((⟨"T - Discussion: " ++ disc60, ⟨"A", none, "T", "unknown-discussion", ""⟩⟩ :
            ContentChunk)
          ∈ Semantic.processDocCContent symDisc "A"
      ∧ hasSuffix "unknown-discussion" "-discussion" = true
      ∧ ∃ secs, symDisc.primaryContentSections = some secs ∧
          ∃ s ∈ secs, ∃ cn, s.content = some cn ∧
            50 < (extractTextFromContent (some cn)).length)
    ∧ ((⟨"T - Parameter x: " ++ par25, ⟨"A", none, "T", "unknown-parameter", ""⟩⟩ :
            ContentChunk)
          ∈ Semantic.processDocCContent symPar "A"
      ∧ hasSuffix "unknown-parameter" "-parameter" = true
      ∧ ∃ secs, symPar.primaryContentSections = some secs ∧
          ∃ s ∈ secs, ∃ ps, s.parameters = some ps ∧
            ∃ p ∈ ps, ∃ pc, p.content = some pc ∧
              20 < (extractTextFromContent (some pc)).length) := by
  have h40 : (extractTextFromContent (some [textNode abs40])).length < 50 := by
    have hex : extractTextFromContent (some [textNode abs40]) = abs40 := by
      simp only [extractTextFromContent, extractGo, textNode]
      decide
    rw [hex]
    decide
  have hmem51 : (⟨"T: " ++ abs51, ⟨"SwiftUI", none, "T", "unknown-abstract", ""⟩⟩ :
      ContentChunk) ∈ Semantic.processDocCContent symAbs51 "SwiftUI" := by
    rw [processDocCContent_min_lengths.2.2.2]
    exact List.mem_singleton.mpr rfl
  have hmemD : (⟨"T - Discussion: " ++ disc60,
      ⟨"A", none, "T", "unknown-discussion", ""⟩⟩ : ContentChunk)
      ∈ Semantic.processDocCContent symDisc "A" := by
    rw [processDocC_symDisc_eq]
    exact List.mem_singleton.mpr rfl
  have hmemP : (⟨"T - Parameter x: " ++ par25,
      ⟨"A", none, "T", "unknown-parameter", ""⟩⟩ : ContentChunk)
      ∈ Semantic.processDocCContent symPar "A" := by
    rw [processDocC_symPar_eq]
    exact List.mem_singleton.mpr rfl
  refine ⟨⟨rfl, h40,
      processDocCContent_min_lengths.1 symAbs40 "SwiftUI" [textNode abs40] rfl h40⟩,
    ⟨hmem51, by decide,
      (processDocCContent_min_lengths.2.1 symAbs51 "SwiftUI" _ hmem51).1 (by decide)⟩,
    ⟨hmemD, by decide,
      (processDocCContent_min_lengths.2.1 symDisc "A" _ hmemD).2.1 (by decide)⟩,
    ⟨hmemP, by decide,
      (processDocCContent_min_lengths.2.1 symPar "A" _ hmemP).2.2 (by decide)⟩⟩

/-! `cosineSimilarity` (semantic engine), over the reals. -/

namespace Semantic

/-- `a.reduce((sum, val) => sum + val * val, 0)`. -/
noncomputable def sumSq (a : List ℝ) : ℝ := a.foldl (fun s v => s + v * v) 0

/-- `a.reduce((sum, val, i) => sum + val * b[i], 0)`: the source reduces over
`a`'s indices; for the equal-length vectors the claims quantify over, this is
the zip-wise product sum (an index beyond `b`'s length would read `undefined`
and poison the JS result with NaN). -/
noncomputable def dotProduct (a b : List ℝ) : ℝ :=
  (a.zip b).foldl (fun s p => s + p.1 * p.2) 0

/-- `Math.sqrt(a.reduce((sum, val) => sum + val * val, 0))`. -/
noncomputable def magnitude (a : List ℝ) : ℝ := Real.sqrt (sumSq a)

/-- `cosineSimilarity(a, b) = dot / (magnitudeA * magnitudeB)`.  The source
divides without any zero-vector guard; IEEE division by a zero denominator
yields NaN (for 0/0) or ±Infinity, neither a real number — modelled as
`none`. -/
noncomputable def cosineSimilarity (a b : List ℝ) : Option ℝ :=
  if magnitude a * magnitude b = 0 then none
  else some (dotProduct a b / (magnitude a * magnitude b))

theorem foldl_add_eq_sum {α : Type} (f : α → ℝ) :
    ∀ (l : List α) (c : ℝ), l.foldl (fun s v => s + f v) c = c + (l.map f).sum := by
  intro l
  induction l with
  | nil => simp
  | cons x xs ih =>
    intro c
    simp only [List.foldl_cons, List.map_cons, List.sum_cons, ih]
    ring

theorem sumSq_eq_sum (a : List ℝ) : sumSq a = (a.map fun v => v * v).sum := by
  simpa using foldl_add_eq_sum (fun v => v * v) a 0

theorem sumSq_nonneg (a : List ℝ) : 0 ≤ sumSq a := by
  rw [sumSq_eq_sum]
  apply List.sum_nonneg
  intro x hx
  obtain ⟨v, -, rfl⟩ := List.mem_map.mp hx
  exact mul_self_nonneg v

theorem sumSq_eq_zero_iff (a : List ℝ) : sumSq a = 0 ↔ ∀ x ∈ a, x = 0 := by
  induction a with
  | nil => simp [sumSq]
  | cons x xs ih =>
    have hx : sumSq (x :: xs) = x * x + sumSq xs := by
      rw [sumSq_eq_sum, sumSq_eq_sum, List.map_cons, List.sum_cons]
    rw [hx]
    constructor
    · intro h
      have h2 := (add_eq_zero_iff_of_nonneg (mul_self_nonneg x) (sumSq_nonneg xs)).mp h
      have hx0 : x = 0 := by
        have := h2.1
        nlinarith [this]
      intro y hy
      rcases List.mem_cons.mp hy with rfl | hy
      · exact hx0
      · exact (ih.mp h2.2) y hy
    · intro h
      have hx0 : x = 0 := h x (List.mem_cons_self _ _)
      have hxs : sumSq xs = 0 := ih.mpr fun y hy => h y (List.mem_cons_of_mem _ hy)
      rw [hx0, hxs]
      ring

theorem zip_self_map (v : List ℝ) :
    (v.zip v).map (fun p => p.1 * p.2) = v.map fun v => v * v := by
  induction v with
  | nil => rfl
  | cons x xs ih => simpa [List.zip_cons_cons] using ih

theorem dotProduct_self (v : List ℝ) : dotProduct v v = sumSq v := by
  have h : dotProduct v v = ((v.zip v).map fun p => p.1 * p.2).sum := by
    simpa using foldl_add_eq_sum (fun p : ℝ × ℝ => p.1 * p.2) (v.zip v) 0
  rw [h, sumSq_eq_sum, zip_self_map v]

end Semantic

/-- C1 counterexample: the code has no zero-vector guard.
`cosineSimilarity([0,0], [1,1])` divides 0 by 0 — NaN in JS (`none` here) —
rather than returning the claimed score 0. -/
theorem cosineSimilarity_zero_vector_nan :
    Semantic.cosineSimilarity [0, 0] [1, 1] = none
      ∧ Semantic.cosineSimilarity [0, 0] [1, 1] ≠ some 0 := by
  have h : Semantic.magnitude [0, 0] = 0 := by
    simp [Semantic.magnitude, Semantic.sumSq]
  refine ⟨?_, ?_⟩ <;> simp [Semantic.cosineSimilarity, h]

/-- C1 amended: for every non-zero vector `v`, `cosineSimilarity(v, v)` is
exactly 1 in real arithmetic (≈ 1.0 in floating point); but for an all-zero
vector the unguarded division is 0/0 — NaN — not the claimed 0. -/
theorem cosineSimilarity_self_and_zero (v b : List ℝ) :
    ((∃ x ∈ v, x ≠ 0) → Semantic.cosineSimilarity v v = some 1)
    ∧ ((∀ x ∈ v, x = 0) → Semantic.cosineSimilarity v b = none) := by
  constructor
  · intro hx
    have hnz : Semantic.sumSq v ≠ 0 := by
      intro h
      obtain ⟨x, hxv, hx0⟩ := hx
      exact hx0 ((Semantic.sumSq_eq_zero_iff v).mp h x hxv)
    have hmag : Semantic.magnitude v * Semantic.magnitude v = Semantic.sumSq v :=
      Real.mul_self_sqrt (Semantic.sumSq_nonneg v)
    rw [Semantic.cosineSimilarity, if_neg (by rw [hmag]; exact hnz),
      Semantic.dotProduct_self, hmag, div_self hnz]
  · intro h0
    have hz : Semantic.sumSq v = 0 := (Semantic.sumSq_eq_zero_iff v).mpr h0
    simp [Semantic.cosineSimilarity, Semantic.magnitude, hz]

/-- Witness for the amended C1 theorem at `v = [3]` (non-zero) and `[0]`
(zero vector against `[7]`). -/
theorem cosineSimilarity_self_and_zero_witness :
    ((∃ x ∈ [(3 : ℝ)], x ≠ 0) ∧ Semantic.cosineSimilarity [(3 : ℝ)] [3] = some 1)
    ∧ ((∀ x ∈ [(0 : ℝ)], x = 0) ∧ Semantic.cosineSimilarity [(0 : ℝ)] [7] = none) := by
  have h1 : ∃ x ∈ [(3 : ℝ)], x ≠ 0 := ⟨3, by norm_num⟩
  have h2 : ∀ x ∈ [(0 : ℝ)], x = 0 := by simp
  exact ⟨⟨h1, (cosineSimilarity_self_and_zero [3] [3]).1 h1⟩,
    ⟨h2, (cosineSimilarity_self_and_zero [0] [7]).2 h2⟩⟩

/-! Stable sorting.  JS `Array.prototype.sort` is stable (ES2019); a stable
sort by the comparator `(a, b) => b.score - a.score` is extensionally
`List.insertionSort` with the precede-or-tie relation "`a`'s key ≥ `b`'s
key".  Filtering commutes with such a sort. -/

theorem orderedInsert_of_forall {α : Type} (r : α → α → Prop) [DecidableRel r]
    (x : α) (l : List α) (h : ∀ z ∈ l, r x z) : l.orderedInsert r x = x :: l := by
  cases l with
  | nil => rfl
  | cons z zs => exact List.orderedInsert_of_le r zs (h z (List.mem_cons_self _ _))

theorem filter_orderedInsert {α : Type} (r : α → α → Prop) [DecidableRel r]
    [IsTotal α r] [IsTrans α r] (p : α → Bool) (x : α) :
    ∀ l : List α, l.Sorted r →
      (l.orderedInsert r x).filter p =
        if p x then (l.filter p).orderedInsert r x else l.filter p := by
  intro l
  induction l with
  | nil =>
    intro _
    by_cases hp : p x <;> simp [List.orderedInsert, hp]
  | cons y ys ih =>
    intro hs
    have hs' : ys.Sorted r := hs.of_cons
    by_cases hr : r x y
    · rw [show (y :: ys).orderedInsert r x = x :: y :: ys from by
        simp [List.orderedInsert, hr]]
      by_cases hp : p x
      · rw [if_pos hp]
        by_cases hpy : p y
        · simp only [List.filter_cons, hp, hpy, if_pos]
          rw [show ((y :: ys.filter p).orderedInsert r x) = x :: y :: ys.filter p from by
            simp [List.orderedInsert, hr]]
        · have hxz : ∀ z ∈ ys.filter p, r x z := by
            intro z hz
            exact Trans.trans hr
              (List.rel_of_sorted_cons hs z (List.mem_of_mem_filter hz))
          simp only [List.filter_cons, hp, hpy]
          simp only [if_pos, if_neg, Bool.false_eq_true, if_false]
          rw [orderedInsert_of_forall r x (ys.filter p) hxz]
      · rw [if_neg hp]
        simp [List.filter_cons, hp]
    · rw [show (y :: ys).orderedInsert r x = y :: ys.orderedInsert r x from by
        simp [List.orderedInsert, hr]]
      by_cases hpy : p y
      · simp only [List.filter_cons, hpy, if_pos, ih hs']
        by_cases hp : p x
        · rw [if_pos hp, if_pos hp]
          rw [show ((y :: ys.filter p).orderedInsert r x) = y :: (ys.filter p).orderedInsert r x
            from by simp [List.orderedInsert, hr]]
        · rw [if_neg hp, if_neg hp]
      · simp only [List.filter_cons, hpy, Bool.false_eq_true, if_false, ih hs']

theorem filter_insertionSort {α : Type} (r : α → α → Prop) [DecidableRel r]
    [IsTotal α r] [IsTrans α r] (p : α → Bool) (l : List α) :
    (l.insertionSort r).filter p = (l.filter p).insertionSort r := by
  induction l with
  | nil => rfl
  | cons x xs ih =>
    rw [List.insertionSort,
      filter_orderedInsert r p x _ (List.sorted_insertionSort r xs), ih]
    by_cases hp : p x
    · rw [if_pos hp]
      simp [List.filter_cons, hp, List.insertionSort]
    · rw [if_neg hp]
      simp [List.filter_cons, hp]

/-! The lexical engine (`TextSearchEngine`): state, ingest, persistence,
search. -/

namespace TextSearch

/-- Metadata of a lexical index record (chunk metadata plus the token
count). -/
structure TextRecordMeta where
  archive : String
  symbolId : Option String
  title : String
  kind : String
  url : String
  tokens : Nat
deriving DecidableEq

/-- A lexical index record (`TextSearchRecord`). -/
structure TextRecord where
  id : String
  content : String
  metadata : TextRecordMeta
deriving DecidableEq

/-- In-memory engine state: the metadata records and the TF-IDF corpus — the
list of texts passed to `tfidf.addDocument`, which is all the state the
`natural` library's `TfIdf` derives its measures from. -/
structure TextState where
  documents : List TextRecord
  tfidf : List String
deriving DecidableEq

/-- The base64 alphabet. -/
def b64Chars : List Char :=
  "ABCDEFGHIJKLMNOPQRSTUVWXYZabcdefghijklmnopqrstuvwxyz0123456789+/".toList

/-- Base64 encoding of a byte list with padding, as produced by
`Buffer.from(content).toString('base64')`. -/
def b64Encode : List Nat → List Char
  | [] => []
  | [b1] => [b64Chars.getD (b1 / 4) 'A', b64Chars.getD (b1 % 4 * 16) 'A', '=', '=']
  | [b1, b2] => [b64Chars.getD (b1 / 4) 'A', b64Chars.getD (b1 % 4 * 16 + b2 / 16) 'A',
      b64Chars.getD (b2 % 16 * 4) 'A', '=']
  | b1 :: b2 :: b3 :: rest =>
    b64Chars.getD (b1 / 4) 'A' :: b64Chars.getD (b1 % 4 * 16 + b2 / 16) 'A' ::
      b64Chars.getD (b2 % 16 * 4 + b3 / 64) 'A' :: b64Chars.getD (b3 % 64) 'A' ::
        b64Encode rest

/-- `generateId(chunk)`: archive, symbol id (or, when falsy, the title), and
the first 8 base64 characters of the UTF-8 content, with every character
outside `[a-zA-Z0-9-]` replaced by `-`. -/
def generateId (chunk : ContentChunk) : String :=
  let contentHash :=
    String.mk ((b64Encode (chunk.content.toUTF8.toList.map (·.toNat))).take 8)
  String.mk (((chunk.metadata.archive ++ "-" ++
      jsOr chunk.metadata.symbolId chunk.metadata.title ++ "-" ++ contentHash).toList).map
    fun c => if c.isAlphanum ∨ c = '-' then c else '-')

/-- `addToIndex(chunks)`: per chunk, push a record (token count =
`content.split(/\s+/).length`) and add the raw content to the TF-IDF
corpus. -/
def addToIndex (st : TextState) (chunks : List ContentChunk) : TextState :=
  chunks.foldl
    (fun s chunk =>
      { documents := s.documents ++
          [⟨generateId chunk, chunk.content,
            ⟨chunk.metadata.archive, chunk.metadata.symbolId, chunk.metadata.title,
              chunk.metadata.kind, chunk.metadata.url, (wordsOf chunk.content).length⟩⟩],
        tfidf := s.tfidf ++ [chunk.content] })
    st

/-- `clearIndex()`: empty both the record list and the TF-IDF corpus. -/
def clearIndex (_st : TextState) : TextState := ⟨[], []⟩

/-- The persisted `{indexPath}/text-index.json` payload
`{documents, timestamp, version}`; JSON (de)serialization of well-typed
values is modelled as the identity. -/
structure IndexFile where
  documents : List TextRecord
  timestamp : String
  version : String
deriving DecidableEq

/-- `saveIndex()` overwrites the file wholesale; the timestamp comes from the
wall clock, passed here as an argument.  `none` on the disk side models a
missing or unparsable file. -/
def saveIndex (st : TextState) (now : String) (_disk : Option IndexFile) :
    Option IndexFile :=
  some ⟨st.documents, now, "1.0.0"⟩

/-- `loadIndex()`: on a readable file, replace `documents` and rebuild the
TF-IDF corpus by re-adding every document's content; on a missing or corrupt
file, log and leave the state alone (so a fresh instance stays empty). -/
def loadIndex (st : TextState) (disk : Option IndexFile) : TextState :=
  match disk with
  | some f => ⟨f.documents, f.documents.map (·.content)⟩
  | none => st

/-- A fresh engine instance (`new TextSearchEngine()`). -/
def freshEngine : TextState := ⟨[], []⟩

/-- A search result row (`TextSearchResult`); the library measure is a
rational here. -/
structure TextResult where
  content : String
  title : String
  url : String
  score : ℚ
  archive : String
  kind : String
deriving DecidableEq

/-- JS `\w`. -/
def isWordChar (c : Char) : Bool := c.isAlphanum || c = '_'

/-- `.replace(/\s+/g, ' ')` at the character level. -/
def collapseWs : List Char → List Char
  | [] => []
  | c :: cs =>
    if c.isWhitespace then ' ' :: collapseWs (cs.dropWhile Char.isWhitespace)
    else c :: collapseWs cs
termination_by l => l.length
decreasing_by
  · simpa using Nat.lt_succ_of_le (List.dropWhile_sublist Char.isWhitespace).length_le
  · simp

/-- `cleanText`: collapse whitespace runs to single spaces, replace all
characters outside `[\w\s.-]` by spaces, lower-case, trim — byte-identical at
index time and query time (both call this function). -/
def cleanText (s : String) : String :=
  let collapsed := String.mk (collapseWs s.toList)
  let repl := String.mk (collapsed.toList.map fun c =>
    if isWordChar c ∨ c.isWhitespace ∨ c = '.' ∨ c = '-' then c else ' ')
  jsTrim repl.toLower

/-- The scored rows for a query: `tfidf.tfidfs(query, cb)` invokes the
callback once per corpus document, in insertion order, with a
library-computed measure — abstracted as the function `mf` of the corpus and
the cleaned query; rows with non-positive measure are skipped. -/
def scoresOf (mf : List String → String → Nat → ℚ) (st : TextState) (cq : String) :
    List (Nat × ℚ) :=
  (List.range st.tfidf.length).filterMap fun i =>
    let m := mf st.tfidf cq i
    if 0 < m then some (i, m) else none

/-- The precede-or-tie relation of the stable sort by
`(a, b) => b.score - a.score`. -/
def scoreGe (a b : Nat × ℚ) : Prop := b.2 ≤ a.2

instance : DecidableRel scoreGe := fun a b => inferInstanceAs (Decidable (b.2 ≤ a.2))

instance : IsTotal (Nat × ℚ) scoreGe := ⟨fun a b => le_total b.2 a.2⟩

instance : IsTrans (Nat × ℚ) scoreGe := ⟨fun _ _ _ hab hbc => le_trans hbc hab⟩

/-- `this.documents[index]` mapped to a result row.  An index beyond
`documents` (impossible while the parallel-corpus invariant holds) would make
JS read `undefined` and throw; it is modelled as an empty-provenance row. -/
def resultOf (st : TextState) (p : Nat × ℚ) : TextResult :=
  match st.documents.get? p.1 with
  | some doc => ⟨doc.content, doc.metadata.title, doc.metadata.url, p.2,
      doc.metadata.archive, doc.metadata.kind⟩
  | none => ⟨"", "", "", p.2, "", ""⟩

/-- The globally ranked result list: every positive-measure row, stably
sorted by descending score (ties in corpus order), mapped to result rows. -/
def rankedResults (mf : List String → String → Nat → ℚ) (query : String)
    (st : TextState) : List TextResult :=
  ((scoresOf mf st (cleanText query)).insertionSort scoreGe).map (resultOf st)

/-- `search(query, limit = 10, archiveFilter?)`: empty corpus short-circuits;
otherwise rank globally, then filter by archive (when the filter string is
truthy), then take the limit. -/
def search (mf : List String → String → Nat → ℚ) (query : String)
    (st : TextState) (limit : Nat) (archiveFilter : Option String) :
    List TextResult :=
  if st.documents.length = 0 then []
  else
    let results := rankedResults mf query st
    let results : List TextResult :=
      match archiveFilter with
      | some a =>
        if a ≠ "" then results.filter (fun r => r.archive == a) else results
      | none => results
    results.take limit

end TextSearch

/-! The vector engine (`SemanticSearchEngine`): state, query, persistence. -/

namespace Semantic

/-- Metadata of an embedding record. -/
structure EmbRecordMeta where
  archive : String
  symbolId : Option String
  title : String
  kind : String
  url : String
  tokens : Nat

/-- A persisted embedding record (`EmbeddingRecord`); embeddings are real
vectors. -/
structure EmbeddingRecord where
  id : String
  embedding : List ℝ
  content : String
  metadata : EmbRecordMeta

/-- Engine state: the embedding pipeline once loaded (`none` before
`initialize()` completes; modelled as the text-to-vector function it
computes) and the stored records. -/
structure SemEngine where
  embedder : Option (String → List ℝ)
  embeddings : List EmbeddingRecord

/-- A fresh engine instance (`new SemanticSearchEngine()`). -/
def freshEngine : SemEngine := ⟨none, []⟩

/-- A semantic search result row; the score is the raw cosine value, `none`
modelling a NaN from the unguarded division. -/
structure SemResult where
  content : String
  title : String
  url : String
  score : Option ℝ
  archive : String
  kind : String

/-- `generateEmbedding(text)`: throws synchronously when the model is not
initialized (before ever consulting the provider), otherwise returns the
provider's vector; the state (embedder and stored records) is never
modified. -/
def generateEmbedding (st : SemEngine) (text : String) :
    Except String (List ℝ) × SemEngine :=
  match st.embedder with
  | none => (.error "Embedding model not initialized. Call initialize() first.", st)
  | some embed => (.ok (embed text), st)

/-- The possibly-NaN sort key, completed to the linear order `WithTop ℝ`.  A
NaN score makes the JS comparator `b.score - a.score` return NaN, which
ECMAScript's SortCompare maps to +0 (a tie) while breaking the comparator
contract, so the engine's output on NaN scores is implementation-defined;
sending `none` to `⊤` is one arbitrary total completion, and the theorems
about `search` assume NaN-freeness. -/
def keyVal (o : Option ℝ) : WithTop ℝ :=
  match o with
  | none => ⊤
  | some x => (x : WithTop ℝ)

/-- The precede-or-tie relation of the stable sort by
`(a, b) => b.score - a.score`. -/
def scoreGe (a b : EmbeddingRecord × Option ℝ) : Prop := keyVal b.2 ≤ keyVal a.2

noncomputable instance : DecidableRel scoreGe :=
  fun a b => inferInstanceAs (Decidable (keyVal b.2 ≤ keyVal a.2))

instance : IsTotal (EmbeddingRecord × Option ℝ) scoreGe := ⟨fun a b => le_total _ _⟩

instance : IsTrans (EmbeddingRecord × Option ℝ) scoreGe :=
  ⟨fun _ _ _ hab hbc => le_trans hbc hab⟩

/-- A scored record mapped to its result row. -/
def toResult (p : EmbeddingRecord × Option ℝ) : SemResult :=
  ⟨p.1.content, p.1.metadata.title, p.1.metadata.url, p.2,
    p.1.metadata.archive, p.1.metadata.kind⟩

/-- The archive-filter predicate of `search`: records pass when no truthy
filter string is supplied or their archive matches it. -/
def keepRecord (archiveFilter : Option String) (r : EmbeddingRecord) : Bool :=
  match archiveFilter with
  | some a => if a ≠ "" then r.metadata.archive == a else true
  | none => true

/-- `search(query, limit = 10, archiveFilter?)`: fails fast when the model is
not initialized, returns `[]` on an empty store, otherwise embeds the query,
filters by archive, scores every remaining record by cosine similarity,
stably sorts by descending score, truncates, and projects result rows.  The
state is never modified. -/
noncomputable def search (st : SemEngine) (query : String) (limit : Nat)
    (archiveFilter : Option String) : Except String (List SemResult) × SemEngine :=
  match st.embedder with
  | none => (.error "Embedding model not initialized", st)
  | some embed =>
    if st.embeddings.length = 0 then (.ok [], st)
    else
      let queryEmbedding := embed query
      let scored := (st.embeddings.filter (keepRecord archiveFilter)).map
        fun r => (r, cosineSimilarity queryEmbedding r.embedding)
      ((.ok (((scored.insertionSort scoreGe).take limit).map toResult)), st)

/-- The globally ranked scored list: every stored record scored against the
query embedding, stably sorted by descending score. -/
noncomputable def globalRank (qe : List ℝ) (recs : List EmbeddingRecord) :
    List (EmbeddingRecord × Option ℝ) :=
  (recs.map fun r => (r, cosineSimilarity qe r.embedding)).insertionSort scoreGe

/-- `saveIndex()`: overwrite `{indexPath}/embeddings.json` with the full
record list (JSON for well-typed values modelled as the identity; `none`
models a missing or unparsable file). -/
def saveIndex (st : SemEngine) (_disk : Option (List EmbeddingRecord)) :
    Option (List EmbeddingRecord) :=
  some st.embeddings

/-- `loadIndex()`: replace the records from the file; on a missing or corrupt
file start fresh with an empty list. -/
def loadIndex (st : SemEngine) (disk : Option (List EmbeddingRecord)) : SemEngine :=
  match disk with
  | some l => { st with embeddings := l }
  | none => { st with embeddings := [] }

end Semantic

/-- C5: for both engines, a supplied (non-empty) archive filter yields
exactly the globally ranked results belonging to that archive, in their
original relative order, truncated to the limit.  The lexical engine filters
after sorting; the vector engine filters before scoring and sorting, which is
observably the same because the sort is stable (filtering commutes with a
stable sort).  The vector conjunct assumes NaN-free scores (non-zero query
and record magnitudes), the regime in which the JS sort is well defined. -/
theorem search_archive_filter_after_ranking :
    (∀ (mf : List String → String → Nat → ℚ) (query : String)
        (st : TextSearch.TextState) (limit : Nat) (A : String), A ≠ "" →
      TextSearch.search mf query st limit (some A) =
        ((TextSearch.rankedResults mf query st).filter
          (fun r => r.archive == A)).take limit)
    ∧ (∀ (st : Semantic.SemEngine) (embed : String → List ℝ) (query : String)
        (limit : Nat) (A : String),
        A ≠ "" → st.embedder = some embed →
        Semantic.magnitude (embed query) ≠ 0 →
        (∀ r ∈ st.embeddings, Semantic.magnitude r.embedding ≠ 0) →
      (Semantic.search st query limit (some A)).1 =
        .ok ((((Semantic.globalRank (embed query) st.embeddings).filter
            (fun p => p.1.metadata.archive == A)).take limit).map Semantic.toResult)) := by
  constructor
  · intro mf query st limit A hA
    by_cases hemp : st.documents.length = 0
    · have hdocs : st.documents = [] := List.length_eq_zero.mp hemp
      rw [TextSearch.search, if_pos hemp]
      have hfilter : (TextSearch.rankedResults mf query st).filter
          (fun r => r.archive == A) = [] := by
        rw [List.filter_eq_nil_iff]
        intro r hr
        obtain ⟨p, -, rfl⟩ := List.mem_map.mp hr
        have : TextSearch.resultOf st p = ⟨"", "", "", p.2, "", ""⟩ := by
          rw [TextSearch.resultOf, hdocs]
          rfl
        rw [this]
        simp only [beq_iff_eq]
        exact fun h => hA h.symm
      rw [hfilter, List.take_nil]
    · rw [TextSearch.search, if_neg hemp]
      simp only [if_pos hA]
  · intro st embed query limit A hA hemb hq hr
    by_cases hemp : st.embeddings.length = 0
    · have h0 : st.embeddings = [] := List.length_eq_zero.mp hemp
      simp [Semantic.search, hemb, hemp, h0, Semantic.globalRank, List.insertionSort]
    · simp only [Semantic.search, hemb, if_neg hemp]
      have hkeep : Semantic.keepRecord (some A) =
          fun r : Semantic.EmbeddingRecord => r.metadata.archive == A := by
        funext r
        simp [Semantic.keepRecord, hA]
      have hfm : (st.embeddings.filter (Semantic.keepRecord (some A))).map
            (fun r => (r, Semantic.cosineSimilarity (embed query) r.embedding))
          = ((st.embeddings.map
              fun r => (r, Semantic.cosineSimilarity (embed query) r.embedding)).filter
              fun p => p.1.metadata.archive == A) := by
        rw [hkeep, List.filter_map]
        rfl
      rw [hfm, ← filter_insertionSort Semantic.scoreGe]
      rfl

/-- Witness for C5 at a two-record store (archives `"A"` and `"B"`, unit
embeddings) with query embedding `[1, 0]` and filter `"A"`. -/
theorem search_archive_filter_after_ranking_witness :
    (("A" : String) ≠ "" ∧
      TextSearch.search (fun _ _ i => 1 - i) "q"
          ⟨[⟨"i1", "c1", ⟨"A", none, "t1", "k", "u", 1⟩⟩,
            ⟨"i2", "c2", ⟨"B", none, "t2", "k", "u", 1⟩⟩], ["c1", "c2"]⟩ 10 (some "A") =
        ((TextSearch.rankedResults (fun _ _ i => 1 - i) "q"
            ⟨[⟨"i1", "c1", ⟨"A", none, "t1", "k", "u", 1⟩⟩,
              ⟨"i2", "c2", ⟨"B", none, "t2", "k", "u", 1⟩⟩], ["c1", "c2"]⟩).filter
          (fun r => r.archive == "A")).take 10)
    ∧ (Semantic.magnitude [(1 : ℝ), 0] ≠ 0 ∧
      (Semantic.search
          ⟨some fun _ => [(1 : ℝ), 0],
            [⟨"e1", [(1 : ℝ), 0], "c1", ⟨"A", none, "t1", "k", "u", 1⟩⟩,
             ⟨"e2", [(0 : ℝ), 1], "c2", ⟨"B", none, "t2", "k", "u", 1⟩⟩]⟩
          "q" 10 (some "A")).1 =
        .ok ((((Semantic.globalRank [(1 : ℝ), 0]
              [⟨"e1", [(1 : ℝ), 0], "c1", ⟨"A", none, "t1", "k", "u", 1⟩⟩,
               ⟨"e2", [(0 : ℝ), 1], "c2", ⟨"B", none, "t2", "k", "u", 1⟩⟩]).filter
            (fun p => p.1.metadata.archive == "A")).take 10).map Semantic.toResult)) := by
  have hmag1 : Semantic.magnitude [(1 : ℝ), 0] ≠ 0 := by
    have : Semantic.sumSq [(1 : ℝ), 0] = 1 := by
      simp [Semantic.sumSq]
    simp [Semantic.magnitude, this]
  have hmag2 : Semantic.magnitude [(0 : ℝ), 1] ≠ 0 := by
    have : Semantic.sumSq [(0 : ℝ), 1] = 1 := by
      simp [Semantic.sumSq]
    simp [Semantic.magnitude, this]
  refine ⟨⟨by decide, ?_⟩, hmag1, ?_⟩
  · exact search_archive_filter_after_ranking.1 (fun _ _ i => 1 - i) "q" _ 10 "A" (by decide)
  · refine search_archive_filter_after_ranking.2 _ (fun _ => [(1 : ℝ), 0]) "q" 10 "A"
      (by decide) rfl hmag1 ?_
    intro r hrmem
    rcases List.mem_cons.mp hrmem with rfl | hrmem
    · exact hmag1
    · rcases List.mem_singleton.mp hrmem with rfl
      exact hmag2

/-- C6: `saveIndex()` then `loadIndex()` into a fresh engine reproduces an
element-wise-equal record set for both engines; the lexical TF-IDF corpus is
rebuilt from exactly the loaded documents' contents (so, given the
parallel-corpus invariant, the reloaded lexical state equals the saved one),
and subsequent vector queries under any embedder see the same corpus. -/
theorem saveIndex_loadIndex_roundtrip :
    (∀ (st : TextSearch.TextState) (now : String)
        (disk : Option TextSearch.IndexFile),
      (TextSearch.loadIndex TextSearch.freshEngine
          (TextSearch.saveIndex st now disk)).documents = st.documents
      ∧ (TextSearch.loadIndex TextSearch.freshEngine
          (TextSearch.saveIndex st now disk)).tfidf
          = st.documents.map (fun d => d.content)
      ∧ (st.tfidf = st.documents.map (fun d => d.content) →
          TextSearch.loadIndex TextSearch.freshEngine
            (TextSearch.saveIndex st now disk) = st))
    ∧ (∀ (st : Semantic.SemEngine) (disk : Option (List Semantic.EmbeddingRecord)),
      (Semantic.loadIndex Semantic.freshEngine
          (Semantic.saveIndex st disk)).embeddings = st.embeddings
      ∧ ∀ (e : String → List ℝ) (query : String) (limit : Nat)
          (af : Option String),
          (Semantic.search
            ⟨some e, (Semantic.loadIndex Semantic.freshEngine
              (Semantic.saveIndex st disk)).embeddings⟩ query limit af).1
            = (Semantic.search ⟨some e, st.embeddings⟩ query limit af).1) := by
  constructor
  · intro st now disk
    refine ⟨rfl, rfl, fun hinv => ?_⟩
    cases st with
    | mk documents tfidf =>
      simp only [TextSearch.loadIndex, TextSearch.saveIndex]
      rw [← hinv]
  · intro st disk
    refine ⟨rfl, fun e query limit af => rfl⟩

/-- Witness for C6 at a one-record lexical state satisfying the
parallel-corpus invariant. -/
theorem saveIndex_loadIndex_roundtrip_witness :
    ((⟨[⟨"id", "c", ⟨"A", none, "t", "k", "u", 1⟩⟩], ["c"]⟩ :
        TextSearch.TextState).tfidf =
      (⟨[⟨"id", "c", ⟨"A", none, "t", "k", "u", 1⟩⟩], ["c"]⟩ :
        TextSearch.TextState).documents.map (fun d => d.content))
    ∧ TextSearch.loadIndex TextSearch.freshEngine
        (TextSearch.saveIndex
          ⟨[⟨"id", "c", ⟨"A", none, "t", "k", "u", 1⟩⟩], ["c"]⟩ "2024-01-01" none)
      = ⟨[⟨"id", "c", ⟨"A", none, "t", "k", "u", 1⟩⟩], ["c"]⟩ :=
  ⟨rfl, (saveIndex_loadIndex_roundtrip.1
    ⟨[⟨"id", "c", ⟨"A", none, "t", "k", "u", 1⟩⟩], ["c"]⟩ "2024-01-01" none).2.2 rfl⟩

/-- C9: calling `generateEmbedding` or `search` before `initialize()` has
completed returns the "Embedding model not initialized" error immediately —
the provider is never consulted (the state holds no pipeline to call), no
retry or reload is attempted, and the engine state, in particular the stored
embedding records, is unchanged. -/
theorem uninitialized_engine_fails_fast (st : Semantic.SemEngine)
    (text query : String) (limit : Nat) (af : Option String)
    (h : st.embedder = none) :
    (Semantic.generateEmbedding st text).1 =
        .error "Embedding model not initialized. Call initialize() first."
      ∧ (Semantic.generateEmbedding st text).2 = st
      ∧ (Semantic.search st query limit af).1 =
          .error "Embedding model not initialized"
      ∧ (Semantic.search st query limit af).2 = st := by
  refine ⟨?_, ?_, ?_, ?_⟩ <;> simp [Semantic.generateEmbedding, Semantic.search, h]

/-- Witness for C9 at the fresh (uninitialized) engine. -/
theorem uninitialized_engine_fails_fast_witness :
    Semantic.freshEngine.embedder = none
      ∧ (Semantic.generateEmbedding Semantic.freshEngine "t").1 =
          .error "Embedding model not initialized. Call initialize() first."
      ∧ (Semantic.search Semantic.freshEngine "q" 10 none).1 =
          .error "Embedding model not initialized"
      ∧ (Semantic.search Semantic.freshEngine "q" 10 none).2 =
          Semantic.freshEngine :=
  ⟨rfl,
    (uninitialized_engine_fails_fast Semantic.freshEngine "t" "q" 10 none rfl).1,
    (uninitialized_engine_fails_fast Semantic.freshEngine "t" "q" 10 none rfl).2.2.1,
    (uninitialized_engine_fails_fast Semantic.freshEngine "t" "q" 10 none rfl).2.2.2⟩

/-- The lexical engine's parallel-corpus invariant: the TF-IDF corpus is
exactly the contents of the metadata records, in order. -/
def TextSearch.corpusAligned (st : TextSearch.TextState) : Prop :=
  st.tfidf = st.documents.map fun d => d.content

/-- C10: the parallel-corpus invariant is preserved by `addToIndex` (which
appends to both sides), established by `clearIndex` (which empties both) and
by `loadIndex` (which rebuilds the corpus from the loaded records, or leaves
the state alone on a missing file); under it, corpus length equals record
count, so every corpus index produced during a query resolves to a record. -/
theorem text_index_parallel_invariant (st : TextSearch.TextState)
    (chunks : List ContentChunk) (disk : Option TextSearch.IndexFile) :
    (TextSearch.corpusAligned st →
        TextSearch.corpusAligned (TextSearch.addToIndex st chunks))
    ∧ TextSearch.corpusAligned (TextSearch.clearIndex st)
    ∧ (TextSearch.corpusAligned st →
        TextSearch.corpusAligned (TextSearch.loadIndex st disk))
    ∧ (TextSearch.corpusAligned st →
        st.tfidf.length = st.documents.length
        ∧ ∀ i < st.tfidf.length, (st.documents.get? i).isSome) := by
  refine ⟨?_, ?_, ?_, ?_⟩
  · intro hinv
    induction chunks generalizing st with
    | nil => exact hinv
    | cons c cs ih =>
      rw [TextSearch.addToIndex, List.foldl_cons]
      refine ih _ ?_
      unfold TextSearch.corpusAligned at hinv ⊢
      dsimp only
      rw [hinv, List.map_append]
      rfl
  · rfl
  · intro hinv
    cases disk with
    | none => exact hinv
    | some f => rfl
  · intro hinv
    have hlen : st.tfidf.length = st.documents.length := by
      rw [hinv, List.length_map]
    refine ⟨hlen, fun i hi => ?_⟩
    rw [List.get?_eq_get (hlen ▸ hi)]
    rfl

/-- Witness for C10 at a one-record aligned state with one more chunk. -/
theorem text_index_parallel_invariant_witness :
    TextSearch.corpusAligned
        ⟨[⟨"id", "c", ⟨"A", none, "t", "k", "u", 1⟩⟩], ["c"]⟩
      ∧ TextSearch.corpusAligned
        (TextSearch.addToIndex
          ⟨[⟨"id", "c", ⟨"A", none, "t", "k", "u", 1⟩⟩], ["c"]⟩
          [⟨"c2", ⟨"B", none, "t2", "k2", "u2"⟩⟩]) :=
  ⟨rfl, (text_index_parallel_invariant
    ⟨[⟨"id", "c", ⟨"A", none, "t", "k", "u", 1⟩⟩], ["c"]⟩
    [⟨"c2", ⟨"B", none, "t2", "k2", "u2"⟩⟩] none).1 rfl⟩

/-! The archive/symbol resolver (`DocCArchiveManager.findSymbolPath`). -/

namespace DocC

/-- A filesystem entry: a file, or a directory with ordered children (the
order models `fs.readdir`'s enumeration order). -/
inductive FSEntry where
  | file (name : String)
  | dir (name : String) (children : List FSEntry)

/-- The entry's name. -/
def FSEntry.name : FSEntry → String
  | .file n => n
  | .dir n _ => n

/-- A configured archive root: its path, and the entries of the root
directory. -/
structure RootFS where
  path : String
  entries : List FSEntry

/-- Remove the first occurrence of `pat` (JS
`String.prototype.replace(pat, '')` with a string pattern). -/
def removeFirst (pat : List Char) : List Char → List Char
  | [] => []
  | c :: cs =>
    if pat.isPrefixOf (c :: cs) then (c :: cs).drop pat.length
    else c :: removeFirst pat cs

/-- `entry.name.replace('.json', '')` — note: the first occurrence, not
necessarily the extension. -/
def replaceJson (name : String) : String :=
  String.mk (removeFirst ".json".toList name.toList)

/-- `entry.name.endsWith('.json')`. -/
def endsJson (name : String) : Bool := ".json".toList.isSuffixOf name.toList

/-- `toLowerCase()`, character-wise. -/
def jsToLower (s : String) : String := String.mk (s.toList.map Char.toLower)

/-- `searchForSymbolFile(dirPath, symbolId)`: depth-first in `readdir` order,
recursing into directories first-match-wins; a `.json` file matches when its
base name (first `.json` occurrence removed) or full name equals the id,
exactly or else case-insensitively — both checks are made per entry before
moving to the next entry.  Returns the matched path as components. -/
def searchForSymbolFile (symbolId : String) :
    List String → List FSEntry → Option (List String)
  | _, [] => none
  | curPath, FSEntry.dir name children :: rest =>
    match searchForSymbolFile symbolId (curPath ++ [name]) children with
    | some p => some p
    | none => searchForSymbolFile symbolId curPath rest
  | curPath, FSEntry.file name :: rest =>
    if endsJson name then
      let baseName := replaceJson name
      if baseName = symbolId ∨ name = symbolId then some (curPath ++ [name])
      else if jsToLower baseName = jsToLower symbolId
          ∨ jsToLower name = jsToLower symbolId then
        some (curPath ++ [name])
      else searchForSymbolFile symbolId curPath rest
    else searchForSymbolFile symbolId curPath rest

/-- `archiveName.endsWith('.doccarchive') ? archiveName
: archiveName + '.doccarchive'`. -/
def archiveDirName (archiveName : String) : String :=
  if ".doccarchive".toList.isSuffixOf archiveName.toList then archiveName
  else archiveName ++ ".doccarchive"

/-- First entry with the given name (`readdir` + name comparison). -/
def lookupEntry (entries : List FSEntry) (name : String) : Option FSEntry :=
  entries.find? fun e => e.name == name

/-- Resolve a relative component path below an entry; `fs.access` succeeds
exactly when this is `some` (file or directory alike). -/
def resolvePath : FSEntry → List String → Option FSEntry
  | e, [] => some e
  | FSEntry.file _, _ :: _ => none
  | FSEntry.dir _ children, c :: cs =>
    match lookupEntry children c with
    | some e => resolvePath e cs
    | none => none

/-- `symbolId.includes('/')`. -/
def hasSlash (s : String) : Bool := s.toList.contains '/'

/-- The relative components of the direct probe
`path.join(archivePath, 'data', symbolId + '.json')`. -/
def directComponents (symbolId : String) : List String :=
  match (symbolId.splitOn "/").reverse with
  | [] => ["data", symbolId ++ ".json"]
  | last :: revInit => "data" :: (revInit.reverse ++ [last ++ ".json"])

/-- The body of one iteration of `findSymbolPath`'s root loop: `none` when
the archive directory is absent in this root (the `fs.access` failure the
loop catches and skips) and also when the archive is present but neither the
direct probe (for ids containing `/`) nor the recursive search of its `data`
directory finds the file — in the source both cases simply proceed to the
next configured root. -/
def findSymbolInRoot (root : RootFS) (symbolId archiveName : String) :
    Option (List String) :=
  let adn := archiveDirName archiveName
  match lookupEntry root.entries adn with
  | none => none
  | some archiveEntry =>
    let direct :=
      if hasSlash symbolId then
        match resolvePath archiveEntry (directComponents symbolId) with
        | some _ => some (root.path :: adn :: directComponents symbolId)
        | none => none
      else none
    match direct with
    | some p => some p
    | none =>
      match archiveEntry with
      | FSEntry.dir _ children =>
        match lookupEntry children "data" with
        | some (FSEntry.dir _ dataChildren) =>
          searchForSymbolFile symbolId [root.path, adn, "data"] dataChildren
        | _ => none
      | FSEntry.file _ => none

/-- `findSymbolPath(symbolId, archiveName)`: iterate the configured roots in
order, returning the first root's find; a miss in one root — archive absent
or file not found there — falls through to the next root; `null` only after
every root missed. -/
def findSymbolPath (roots : List RootFS) (symbolId archiveName : String) :
    Option (List String) :=
  match roots with
  | [] => none
  | r :: rest =>
    match findSymbolInRoot r symbolId archiveName with
    | some p => some p
    | none => findSymbolPath rest symbolId archiveName

end DocC

/-- First configured root: its `A.doccarchive` exists but holds only
`other.json`. -/
def rootOne : DocC.RootFS :=
  ⟨"/r1", [DocC.FSEntry.dir "A.doccarchive"
    [DocC.FSEntry.dir "data" [DocC.FSEntry.file "other.json"]]]⟩

/-- Second configured root: its `A.doccarchive` holds the target `f.json`. -/
def rootTwo : DocC.RootFS :=
  ⟨"/r2", [DocC.FSEntry.dir "A.doccarchive"
    [DocC.FSEntry.dir "data" [DocC.FSEntry.file "f.json"]]]⟩

theorem rootOne_miss : DocC.findSymbolInRoot rootOne "f" "A" = none := by
  rw [show DocC.findSymbolInRoot rootOne "f" "A" =
      DocC.searchForSymbolFile "f" ["/r1", "A.doccarchive", "data"]
        [DocC.FSEntry.file "other.json"] from rfl]
  simp [DocC.searchForSymbolFile, DocC.endsJson, DocC.replaceJson,
    DocC.removeFirst, DocC.jsToLower]

theorem rootTwo_hit : DocC.findSymbolInRoot rootTwo "f" "A" =
    some ["/r2", "A.doccarchive", "data", "f.json"] := by
  rw [show DocC.findSymbolInRoot rootTwo "f" "A" =
      DocC.searchForSymbolFile "f" ["/r2", "A.doccarchive", "data"]
        [DocC.FSEntry.file "f.json"] from rfl]
  simp [DocC.searchForSymbolFile, DocC.endsJson, DocC.replaceJson,
    DocC.removeFirst, DocC.jsToLower]

/-- C3 counterexample: resolution does not use the first
archive-containing root exclusively.  With `f.json` absent from the first
root's `A.doccarchive` but present in the second's, `findSymbolPath` returns
the second root's file — not the `null` the claim predicts. -/
theorem findSymbolPath_second_root_found :
    DocC.findSymbolPath [rootOne, rootTwo] "f" "A" =
        some ["/r2", "A.doccarchive", "data", "f.json"]
      ∧ DocC.findSymbolPath [rootOne, rootTwo] "f" "A" ≠ none := by
  have h : DocC.findSymbolPath [rootOne, rootTwo] "f" "A" =
      some ["/r2", "A.doccarchive", "data", "f.json"] := by
    simp [DocC.findSymbolPath, rootOne_miss, rootTwo_hit]
  exact ⟨h, by simp [h]⟩

/-- C3 amended: later roots ARE retried.  `findSymbolPath` returns the first
per-root find in configured order — if every earlier root misses (archive
absent there, or present without the file) and some root yields a path, that
path is returned; and `null` is returned exactly when every configured root
misses. -/
theorem findSymbolPath_retries_roots :
    (∀ (roots₁ roots₂ : List DocC.RootFS) (r : DocC.RootFS)
        (symbolId archiveName : String) (p : List String),
      (∀ r' ∈ roots₁, DocC.findSymbolInRoot r' symbolId archiveName = none) →
      DocC.findSymbolInRoot r symbolId archiveName = some p →
      DocC.findSymbolPath (roots₁ ++ r :: roots₂) symbolId archiveName = some p)
    ∧ (∀ (roots : List DocC.RootFS) (symbolId archiveName : String),
      DocC.findSymbolPath roots symbolId archiveName = none ↔
        ∀ r ∈ roots, DocC.findSymbolInRoot r symbolId archiveName = none) := by
  constructor
  · intro roots₁ roots₂ r symbolId archiveName p hmiss hhit
    induction roots₁ with
    | nil => simp [DocC.findSymbolPath, hhit]
    | cons r' rs ih =>
      rw [List.cons_append, DocC.findSymbolPath,
        hmiss r' (List.mem_cons_self _ _)]
      exact ih fun x hx => hmiss x (List.mem_cons_of_mem _ hx)
  · intro roots symbolId archiveName
    induction roots with
    | nil => simp [DocC.findSymbolPath]
    | cons r rs ih =>
      rw [DocC.findSymbolPath]
      cases h : DocC.findSymbolInRoot r symbolId archiveName with
      | some p =>
        simp only []
        constructor
        · intro hc
          cases hc
        · intro hall
          rw [hall r (List.mem_cons_self _ _)] at h
          cases h
      | none =>
        simp only []
        rw [ih]
        constructor
        · intro hall x hx
          rcases List.mem_cons.mp hx with rfl | hx
          · exact h
          · exact hall x hx
        · intro hall x hx
          exact hall x (List.mem_cons_of_mem _ hx)

/-- Witness for the amended C3 theorem at the two-root counterexample
filesystem: the first root misses, the second hits, and the hit is
returned. -/
theorem findSymbolPath_retries_roots_witness :
    (∀ r' ∈ [rootOne], DocC.findSymbolInRoot r' "f" "A" = none)
      ∧ DocC.findSymbolInRoot rootTwo "f" "A" =
          some ["/r2", "A.doccarchive", "data", "f.json"]
      ∧ DocC.findSymbolPath ([rootOne] ++ rootTwo :: []) "f" "A" =
          some ["/r2", "A.doccarchive", "data", "f.json"]
      ∧ (DocC.findSymbolPath [] "f" "A" = none ↔
          ∀ r ∈ ([] : List DocC.RootFS), DocC.findSymbolInRoot r "f" "A" = none) := by
  have hmiss : ∀ r' ∈ [rootOne], DocC.findSymbolInRoot r' "f" "A" = none := by
    intro r' hr'
    rcases List.mem_singleton.mp hr' with rfl
    exact rootOne_miss
  exact ⟨hmiss, rootTwo_hit,
    findSymbolPath_retries_roots.1 [rootOne] [] rootTwo "f" "A" _ hmiss rootTwo_hit,
    findSymbolPath_retries_roots.2 [] "f" "A"⟩
